import Mathlib

/-!
# joinfiles: a verification development

A shallow embedding of `src/joinfiles.c` (the whole program is one C file) and
theorems about it.

Conventions of the embedding

* `uint` / `__u32` values are natural numbers reduced modulo `2^32`;
  `size_t` values are natural numbers reduced modulo `2^64`.
* `int` arithmetic in `version_from` is two's-complement (the result of every
  operation is wrapped into `[-2^31, 2^31)`).
* A C string is the list of its characters before the terminating NUL.
* System and library calls are answered by an oracle: a list of results,
  consumed one per call, in program order. Every answered call is logged, with
  its arguments, its result and the values of `fd_size` and `remain` at the
  time of the call. A run whose oracle is used up stops inside the call that
  found it empty (`Outcome.blocked`), so a statement about all oracles is a
  statement about every point of every run.
* Paths are named by their index in `argv`. Output to `stderr`, `alloca` and
  `free` are not modelled.
* File contents are modelled apart from the program (`World`): a log is
  replayed on the files, which checks that the results are ones the files
  allow and gives the bytes of the destination.
-/

namespace Joinfiles

/-! ## Version numbers (`as_version`, `version_from`) -/

/-- Number of values of a 32 bit `uint` / `__u32`. -/
def UINT_SIZE : Nat := 2 ^ 32

/-- Conversion of an `int` to `uint` (reduction modulo `2^32`). -/
def to_uint (x : Int) : Nat := (x % 2 ^ 32).toNat

/-- Two's-complement wrap of an `int` result into `[-2^31, 2^31)`. -/
def wrap_int (x : Int) : Int := (x + 2 ^ 31) % 2 ^ 32 - 2 ^ 31

/-- Source lines 36-39.
`return major<<24 | minor <<16 | patch;` on 32 bit unsigned operands. -/
def as_version (major minor patch : Nat) : Nat :=
  (((major % UINT_SIZE) <<< 24) % UINT_SIZE ||| ((minor % UINT_SIZE) <<< 16) % UINT_SIZE)
    ||| (patch % UINT_SIZE)

/-- The C library predicate `isdigit` in the C locale. -/
def isdigit (c : Char) : Bool := 48 ≤ c.toNat && c.toNat ≤ 57

/-- The array `int ver[3]`. -/
structure Ver where
  v0 : Int
  v1 : Int
  v2 : Int
  deriving DecidableEq, Repr

/-- Read of `ver[i]` for `i < 3`. -/
def Ver.get (ver : Ver) (i : Nat) : Int :=
  match i with
  | 0 => ver.v0
  | 1 => ver.v1
  | _ => ver.v2

/-- Write of `ver[i]` for `i < 3`. -/
def Ver.set (ver : Ver) (i : Nat) (x : Int) : Ver :=
  match i with
  | 0 => { ver with v0 := x }
  | 1 => { ver with v1 := x }
  | _ => { ver with v2 := x }

/-- Source lines 45-56, the `while` loop of `version_from`. The list is the
text from `p` up to the terminating NUL. -/
def version_loop : List Char → Ver → Nat → Ver
  | [], ver, _ => ver
  | c :: p, ver, i =>
    if c.toNat = 0 ∨ ¬ i < 3 then ver
    else if isdigit c then
      let a := wrap_int (ver.get i * 10)
      let b := wrap_int (a + ((c.toNat : Int) - 48))
      version_loop p (ver.set i b) i
    else if c ≠ '.' then ver
    else version_loop p ver (i + 1)

/-- Source lines 41-58. -/
def version_from (p : List Char) : Nat :=
  let ver := version_loop p ⟨0, 0, 0⟩ 0
  as_version (to_uint ver.v0) (to_uint ver.v1) (to_uint ver.v2)

/-- Value of a decimal numeral (the reading of "decimal numeral" that the
parser is compared with). -/
def decimal (ds : List Char) : Nat :=
  ds.foldl (fun a c => 10 * a + (c.toNat - 48)) 0

/-- Lexicographic `≥` on version triples (the order the specification names). -/
def lex_ge (a1 a2 a3 b1 b2 b3 : Nat) : Prop :=
  a1 > b1 ∨ (a1 = b1 ∧ (a2 > b2 ∨ (a2 = b2 ∧ a3 ≥ b3)))

instance (a1 a2 a3 b1 b2 b3 : Nat) : Decidable (lex_ge a1 a2 a3 b1 b2 b3) := by
  unfold lex_ge; infer_instance

/-! ## The environment: system calls and their results -/

/-- Result of a system or library call. `ok v`: the call succeeded and `v` is
the value it produced (a descriptor, a byte count, a file size, a block size,
a file offset; ignored for calls that produce nothing). `err e`: the call
failed (returned `-1` or `NULL`) with `errno = e`. -/
inductive Ret where
  | ok (value : Nat)
  | err (errno : Nat)
  deriving DecidableEq, Repr

/-- The calls the program makes. A path argument is named by its index in
`argv`; descriptors and sizes are the values passed. -/
inductive Call where
  /-- Line 64. -/
  | uname
  /-- Line 87, on `argv[1]`. -/
  | canonicalize_file_name
  /-- Line 92. -/
  | dirname
  /-- Line 117: `open(outdir, O_TMPFILE|O_WRONLY|O_CLOEXEC, 0644)`. -/
  | open_tmpfile
  /-- Line 120: `open(outfile, O_CREAT|O_WRONLY|O_TRUNC, 0644)`. -/
  | open_output
  /-- Line 136: `open(argv[i], O_RDONLY|O_NOCTTY|O_CLOEXEC)`. -/
  | open_input (i : Nat)
  /-- Line 146. -/
  | fstatfs (fd : Nat)
  /-- Line 156. -/
  | fstat (fd : Nat)
  /-- Line 172: `copy_file_range(fd_in, NULL, fd_out, NULL, count, 0)`. -/
  | copy_file_range (fd_in fd_out count : Nat)
  /-- Line 204: `ioctl(fd_out, FICLONERANGE, &cfg)` with the fields of `cfg`. -/
  | ficlonerange (fd_out src_fd src_offset src_length dest_offset : Nat)
  /-- Line 215: `lseek(fd_out, 0, SEEK_END)`. -/
  | lseek_end (fd_out : Nat)
  /-- Line 233: `sendfile(fd_out, fd_in, NULL, count)`. -/
  | sendfile (fd_out fd_in count : Nat)
  /-- Lines 246 and 294. -/
  | close (fd : Nat)
  /-- Lines 259 and 265: `linkat(fd_out, "", AT_FDCWD, outfile, AT_EMPTY_PATH)`. -/
  | linkat_empty_path (fd_out : Nat)
  /-- Lines 277 and 283: `linkat(fd_out, "/proc/self/fd/N", AT_FDCWD, outfile, AT_SYMLINK_FOLLOW)`. -/
  | linkat_proc (fd_out : Nat)
  /-- Lines 261 and 279: `remove(outfile)`. -/
  | remove
  deriving DecidableEq, Repr

/-- One answered call, with the values the variables `fd_size` and `remain`
had when the call was made (`remain` is the counter of the source being
drained; it is meaningful between that source's `fstat` and its `close`). -/
structure Event where
  call : Call
  ret : Ret
  fd_size : Nat
  remain : Nat
  deriving DecidableEq, Repr

def EINTR : Nat := 4
def ENOENT : Nat := 2
def EBADF : Nat := 9
def EEXIST : Nat := 17
def ENOSYS : Nat := 38
def EOPNOTSUPP : Nat := 95

/-- `stdlib.h`. -/
def EXIT_SUCCESS : Nat := 0
/-- `stdlib.h`. -/
def EXIT_FAILURE : Nat := 1
/-- Source lines 28-30. -/
def EXIT_INVALIDARGUMENT : Nat := 2

/-- How a run ends. `blocked c`: the oracle holds no result for the call `c`,
the run has not got past that call. `sigfpe`: `fd_size % fs_blocksize` was
evaluated with `fs_blocksize = 0`. -/
inductive Outcome where
  | exit (code : Nat)
  | sigfpe
  | blocked (c : Call)
  deriving DecidableEq, Repr

/-- What is fixed before `main` starts: how the program was compiled and the
two version strings it reads. -/
structure Env where
  /-- `__GLIBC__` is defined (lines 25, 75). -/
  glibc : Bool
  /-- `__GLIBC_PREREQ(2,27)` holds (line 163). -/
  glibc_prereq_2_27 : Bool
  /-- What `uname` stores in `lnx.release`. -/
  release : List Char
  /-- What `gnu_get_libc_version()` returns. -/
  libc_version : List Char

/-- The program's mutable variables that outlive one statement, and the log
of answered calls. -/
structure State where
  /-- Line 32. -/
  has_copy_file_range : Bool
  /-- Line 33. -/
  has_ficlone : Bool
  /-- Line 34. -/
  has_otmpfile : Bool
  /-- Line 130. -/
  fd_size : Nat
  /-- Line 160. -/
  remain : Nat
  trace : List Event
  deriving DecidableEq, Repr

/-- The state at program start (lines 32-34). -/
def State.init : State :=
  { has_copy_file_range := true, has_ficlone := true, has_otmpfile := true,
    fd_size := 0, remain := 0, trace := [] }

/-- Append an answered call to the log. -/
def State.log (st : State) (c : Call) (r : Ret) : State :=
  { st with trace := st.trace ++ [⟨c, r, st.fd_size, st.remain⟩] }

/-- Result of running a piece of the program: it returns a value and goes on
with the rest of the oracle, or the run ends there. -/
inductive Res (α : Type) where
  | ret (a : α) (st : State) (rest : List Ret)
  | halt (o : Outcome) (st : State)

/-- Sequencing. -/
def Res.bind {α β : Type} (m : Res α) (f : α → State → List Ret → Res β) : Res β :=
  match m with
  | .ret a st rs => f a st rs
  | .halt o st => .halt o st

/-- One call: take the next result from the oracle and log it. -/
def sys (c : Call) (st : State) : List Ret → Res Ret
  | [] => .halt (.blocked c) st
  | r :: rs => .ret r (st.log c r) rs

/-! ## Machine arithmetic on `size_t` -/

/-- Number of values of a 64 bit `size_t`. -/
def SIZE_T : Nat := 2 ^ 64

/-- The operation `a -= n` on `size_t`. -/
def size_sub (a n : Nat) : Nat := (a + (SIZE_T - n % SIZE_T)) % SIZE_T

/-- The operation `a += n` on `size_t`. -/
def size_add (a n : Nat) : Nat := (a + n) % SIZE_T

/-- Line 165: `1<<30`. -/
def max_count_cfr : Nat := 2 ^ 30

/-- Line 226. -/
def max_count_sendfile : Nat := 0x7ffff000

/-- Lines 167-170 and 228-231: `count = max_count; if (remain < max_count) count = remain;`. -/
def request_count (remain max_count : Nat) : Nat :=
  if remain < max_count then remain else max_count

/-- Lines 184-185, 220-221, 241-242: `remain -= n; fd_size += n;`. -/
def State.advance (st : State) (n : Nat) : State :=
  { st with remain := size_sub st.remain n, fd_size := size_add st.fd_size n }

/-! ## `init_features` -/

/-- Source lines 60-83. -/
def init_features (env : Env) (st : State) (rs : List Ret) : Res Unit :=
  (sys .uname st rs).bind fun r st rs =>
    match r with
    | .err _ => .halt (.exit EXIT_FAILURE) st
    | .ok _ =>
      let kv := version_from env.release
      let st := { st with
        has_copy_file_range := decide (kv ≥ as_version 5 3 0),
        has_otmpfile := decide (kv ≥ as_version 3 11 0) }
      if env.glibc && decide (version_from env.libc_version < as_version 2 30 0) then
        .ret () { st with has_copy_file_range := false } rs
      else
        .ret () st rs

/-! ## Output staging and input enumeration -/

/-- Source lines 85-98. Returns when both library calls gave a non-NULL
result. -/
def directory_from_filename (st : State) (rs : List Ret) : Res Unit :=
  (sys .canonicalize_file_name st rs).bind fun r st rs =>
    match r with
    | .err _ => .halt (.exit EXIT_FAILURE) st
    | .ok _ =>
      (sys .dirname st rs).bind fun r st rs =>
        match r with
        | .err _ => .halt (.exit EXIT_FAILURE) st
        | .ok _ => .ret () st rs

/-- Source lines 109-129. Returns `fd_out` and whether `outdir` is non-NULL
(the output is an `O_TMPFILE`). -/
def open_output (st : State) (rs : List Ret) : Res (Nat × Bool) :=
  let named (st : State) (rs : List Ret) : Res (Nat × Bool) :=
    (sys .open_output st rs).bind fun r st rs =>
      match r with
      | .err _ => .halt (.exit EXIT_FAILURE) st
      | .ok fd => .ret (fd, false) st rs
  if st.has_otmpfile then
    (directory_from_filename st rs).bind fun _ st rs =>
      (sys .open_tmpfile st rs).bind fun r st rs =>
        match r with
        | .ok fd => .ret (fd, true) st rs
        | .err _ => named st rs
  else named st rs

/-- Source lines 135-142: open `argv[i]`, `argv[i+1]`, ... (`k` of them) and
return the descriptors in that order. -/
def open_inputs : (k : Nat) → (i : Nat) → State → List Ret → Res (List Nat)
  | 0, _, st, rs => .ret [] st rs
  | k + 1, i, st, rs =>
    (sys (.open_input i) st rs).bind fun r st rs =>
      match r with
      | .err _ => .halt (.exit EXIT_FAILURE) st
      | .ok f => (open_inputs k (i + 1) st rs).bind fun fds st rs => .ret (f :: fds) st rs

/-! ## The copy engine -/

/-- Source lines 166-186, the `do ... while (remain > 0 && n > 0)` loop around
`copy_file_range`. `continue` in a `do`-`while` jumps to the loop condition;
after `EINTR` the variable `n` is `-1`, so the condition is false and the loop
is left. -/
def copy_file_range_loop (fd_in fd_out : Nat) : List Ret → State → Res Unit
  | [], st =>
    .halt (.blocked (.copy_file_range fd_in fd_out (request_count st.remain max_count_cfr))) st
  | r :: rs, st =>
    let count := request_count st.remain max_count_cfr
    let st := st.log (.copy_file_range fd_in fd_out count) r
    match r with
    | .err e =>
      if e = EINTR then .ret () st rs
      else if e = ENOSYS then .ret () { st with has_copy_file_range := false } rs
      else .halt (.exit EXIT_FAILURE) st
    | .ok n =>
      let st := st.advance n
      if st.remain > 0 ∧ n > 0 then copy_file_range_loop fd_in fd_out rs st
      else .ret () st rs

/-- Source lines 202-205: `do n = ioctl(...) while (n == -1 && errno == EINTR)`. -/
def ioctl_loop (c : Call) : List Ret → State → Res Ret
  | [], st => .halt (.blocked c) st
  | r :: rs, st =>
    if r = .err EINTR then ioctl_loop c rs (st.log c r)
    else .ret r (st.log c r) rs

/-- Source lines 192-223, the `FICLONERANGE` strategy. `&&` evaluates
`fd_size % fs_blocksize` only when the two tests before it hold. `errno` is
`0` after a successful `ioctl` (line 203) and stays so when `lseek` succeeds;
a failed `lseek` sets it to a nonzero value, which is what line 216 tests. -/
def clone_stage (fs_blocksize fd_in fd_out : Nat) (st : State) (rs : List Ret) : Res Unit :=
  if st.has_ficlone && decide (st.remain > fs_blocksize) then
    if fs_blocksize = 0 then .halt .sigfpe st
    else if st.fd_size % fs_blocksize = 0 then
      (ioctl_loop (.ficlonerange fd_out fd_in 0 st.remain st.fd_size) rs st).bind fun n st rs =>
        match n with
        | .err e =>
          if e = ENOSYS ∨ e = EBADF ∨ e = EOPNOTSUPP then
            .ret () { st with has_ficlone := false } rs
          else .halt (.exit EXIT_FAILURE) st
        | .ok _ =>
          (sys (.lseek_end fd_out) st rs).bind fun r st rs =>
            match r with
            | .err _ => .halt (.exit EXIT_FAILURE) st
            | .ok eof => .ret () (st.advance (size_sub eof st.fd_size)) rs
    else .ret () st rs
  else .ret () st rs

/-- Source lines 227-243, the `do ... while (remain > 0 && n > 0)` loop around
`sendfile`. As in `copy_file_range_loop`, `continue` after `EINTR` reaches the
loop condition with `n = -1` and the loop is left. -/
def sendfile_loop (fd_out fd_in : Nat) : List Ret → State → Res Unit
  | [], st =>
    .halt (.blocked (.sendfile fd_out fd_in (request_count st.remain max_count_sendfile))) st
  | r :: rs, st =>
    let count := request_count st.remain max_count_sendfile
    let st := st.log (.sendfile fd_out fd_in count) r
    match r with
    | .err e =>
      if e = EINTR then .ret () st rs
      else .halt (.exit EXIT_FAILURE) st
    | .ok n =>
      let st := st.advance n
      if st.remain > 0 ∧ n > 0 then sendfile_loop fd_out fd_in rs st
      else .ret () st rs

/-- Whether the block of lines 164-187 is compiled in (line 163). -/
def Env.cfr_compiled (env : Env) : Bool := env.glibc && env.glibc_prereq_2_27

/-- Source lines 163-188: the `copy_file_range` strategy, when compiled in and
enabled. -/
def bulk_stage (env : Env) (fd_in fd_out : Nat) (st : State) (rs : List Ret) : Res Unit :=
  if env.cfr_compiled && st.has_copy_file_range then copy_file_range_loop fd_in fd_out rs st
  else .ret () st rs

/-- Source lines 225-244: the `sendfile` strategy. -/
def sendfile_stage (fd_out fd_in : Nat) (st : State) (rs : List Ret) : Res Unit :=
  if st.remain > 0 then sendfile_loop fd_out fd_in rs st
  else .ret () st rs

/-- Source lines 246-253: close the source, fail when bytes remain. -/
def close_source (fd_in : Nat) (st : State) (rs : List Ret) : Res Unit :=
  (sys (.close fd_in) st rs).bind fun _ st rs =>
    if st.remain > 0 then .halt (.exit EXIT_FAILURE) st
    else .ret () st rs

/-- Source lines 163-244: the three strategies, in their order, on the source
`fd_in`. -/
def transfer (env : Env) (fs_blocksize fd_out fd_in : Nat) (st : State) (rs : List Ret) :
    Res Unit :=
  (bulk_stage env fd_in fd_out st rs).bind fun _ st rs =>
  (clone_stage fs_blocksize fd_in fd_out st rs).bind fun _ st rs =>
  sendfile_stage fd_out fd_in st rs

/-- Source lines 154-253, the body of the copy loop for the source `fd_in`. -/
def copy_one (env : Env) (fs_blocksize fd_out fd_in : Nat) (st : State) (rs : List Ret) :
    Res Unit :=
  (sys (.fstat fd_in) st rs).bind fun r st rs =>
    match r with
    | .err _ => .halt (.exit EXIT_FAILURE) st
    | .ok st_size =>
      (transfer env fs_blocksize fd_out fd_in { st with remain := st_size % SIZE_T } rs).bind
        fun _ st rs => close_source fd_in st rs

/-- Source lines 153-254: `while (*arr_infd) ...`. The list holds the array
`arr_infd` from the current position up to, not including, the terminating
`0` written at line 143; an element `0` inside it ends the loop as well. -/
def copy_loop (env : Env) (fs_blocksize fd_out : Nat) : List Nat → State → List Ret → Res Unit
  | [], st, rs => .ret () st rs
  | fd_in :: arr_infd, st, rs =>
    if fd_in = 0 then .ret () st rs
    else (copy_one env fs_blocksize fd_out fd_in st rs).bind fun _ st rs =>
      copy_loop env fs_blocksize fd_out arr_infd st rs

/-! ## Publication -/

/-- Source lines 259-266 and 277-284: `n = linkat(...)`, and when that failed
with `EEXIST`, `remove(outfile)` and `linkat` once more. -/
def link_or_replace (link : Call) (st : State) (rs : List Ret) : Res Ret :=
  (sys link st rs).bind fun n st rs =>
    if n = .err EEXIST then
      (sys .remove st rs).bind fun r st rs =>
        match r with
        | .err _ => .halt (.exit EXIT_FAILURE) st
        | .ok _ => sys link st rs
    else .ret n st rs

/-- Source lines 257-292, entered with `outdir != NULL`. -/
def publish (fd_out : Nat) (st : State) (rs : List Ret) : Res Unit :=
  (link_or_replace (.linkat_empty_path fd_out) st rs).bind fun n st rs =>
    match n with
    | .ok _ => .ret () st rs
    | .err e =>
      if e ≠ ENOENT then .halt (.exit EXIT_FAILURE) st
      else
        (link_or_replace (.linkat_proc fd_out) st rs).bind fun n st rs =>
          match n with
          | .ok _ => .ret () st rs
          | .err _ => .halt (.exit EXIT_FAILURE) st

/-! ## `main` -/

/-- The state a piece of the program ends in. -/
def Res.state {α : Type} : Res α → State
  | .ret _ st _ => st
  | .halt _ st => st

/-- The end of a run. -/
structure Run where
  outcome : Outcome
  state : State
  deriving DecidableEq, Repr

/-- Every path through `main` ends in `exit`; a piece that returns has run to
the end of the text given to it. -/
def Res.run : Res Unit → Run
  | .ret _ st _ => ⟨.exit EXIT_SUCCESS, st⟩
  | .halt o st => ⟨o, st⟩

/-- Source lines 107-295, `main` after the argument check. -/
def main_body (env : Env) (argc : Nat) (st : State) (rs : List Ret) : Res Unit :=
  (init_features env st rs).bind fun _ st rs =>
  (open_output st rs).bind fun out st rs =>
  (open_inputs (argc - 2) 1 st rs).bind fun arr_infd st rs =>
  (sys (.fstatfs out.1) st rs).bind fun r st rs =>
    match r with
    | .err _ => .halt (.exit EXIT_FAILURE) st
    | .ok f_bsize =>
      (copy_loop env (f_bsize % SIZE_T) out.1 arr_infd st rs).bind fun _ st rs =>
      (if out.2 then publish out.1 st rs else .ret () st rs).bind fun _ st rs =>
      (sys (.close out.1) st rs).bind fun _ st _ =>
      .halt (.exit EXIT_SUCCESS) st

/-- Source lines 100-296. `argc` is the number of elements of `argv`, the
oracle answers the calls in program order. -/
def main (env : Env) (argc : Nat) (oracle : List Ret) : Run :=
  if argc < 3 then ⟨.exit EXIT_INVALIDARGUMENT, State.init⟩
  else (main_body env argc State.init oracle).run

/-! ## The file system the calls act on

The program model above takes the results of its calls from an oracle. To
speak about file contents, a logged run is replayed on a model of the files:
every logged result must be one the files allow, and every successful call has
its effect on them. -/

/-- File contents: a list of bytes. -/
abbrev Bytes := List Nat

/-- What the destination path names. -/
inductive Dest where
  /-- No file has that name. -/
  | absent
  /-- The file that had the name before the run, with its bytes. -/
  | old (content : Bytes)
  /-- The output file of this run. -/
  | output
  deriving DecidableEq, Repr

/-- An open source: descriptor, bytes, read offset. -/
structure Source where
  fd : Nat
  content : Bytes
  pos : Nat
  deriving DecidableEq, Repr

/-- The files. -/
structure World where
  sources : List Source
  /-- Bytes of the file behind `fd_out`. -/
  out : Bytes
  /-- File offset of `fd_out`. -/
  out_pos : Nat
  dest : Dest
  deriving DecidableEq, Repr

/-- Write `data` into `f` at offset `off` (a gap is filled with zero bytes). -/
def write_at (f : Bytes) (off : Nat) (data : Bytes) : Bytes :=
  f.take off ++ List.replicate (off - f.length) 0 ++ data ++ f.drop (off + data.length)

/-- The open source behind a descriptor. -/
def World.source (w : World) (fd : Nat) : Option Source :=
  w.sources.find? (fun s => s.fd = fd)

/-- Move the read offset of the source `fd` forward by `n`. -/
def World.seek_source (w : World) (fd n : Nat) : World :=
  { w with sources := w.sources.map (fun s => if s.fd = fd then { s with pos := s.pos + n } else s) }

/-- A transfer of `n` bytes by `copy_file_range` or `sendfile` with NULL
offsets: the bytes at the read offset of the source are written at the file
offset of the output, both offsets move by `n`. The call cannot return more
than `count` or more than the source still holds. -/
def World.transfer (w : World) (fd_in count n : Nat) : Option World :=
  match w.source fd_in with
  | none => none
  | some s =>
    if n ≤ count ∧ s.pos + n ≤ s.content.length then
      some { (w.seek_source fd_in n) with
        out := write_at w.out w.out_pos ((s.content.drop s.pos).take n),
        out_pos := w.out_pos + n }
    else none

/-- Effect of one answered call on the files, `none` when the files do not
allow that answer. Failed calls change nothing. -/
def World.step (w : World) (e : Event) : Option World :=
  match e.call, e.ret with
  | .fstat fd, .ok st_size =>
    match w.source fd with
    | none => none
    | some s => if st_size = s.content.length then some w else none
  | .copy_file_range fd_in _ count, .ok n => w.transfer fd_in count n
  | .sendfile _ fd_in count, .ok n => w.transfer fd_in count n
  | .ficlonerange _ src_fd src_offset src_length dest_offset, .ok _ =>
    match w.source src_fd with
    | none => none
    | some s =>
      if src_offset + src_length ≤ s.content.length then
        some { w with out := write_at w.out dest_offset ((s.content.drop src_offset).take src_length) }
      else none
  | .lseek_end _, .ok eof =>
    if eof = w.out.length then some { w with out_pos := eof } else none
  | .open_output, .ok _ => some { w with dest := .output }
  | .linkat_empty_path _, .ok _ => some { w with dest := .output }
  | .linkat_proc _, .ok _ => some { w with dest := .output }
  | .remove, .ok _ => some { w with dest := .absent }
  | _, _ => some w

/-- Replay of a log. -/
def World.replay (w : World) : List Event → Option World
  | [] => some w
  | e :: es => (w.step e).bind fun w => w.replay es

/-- The bytes found under the destination path, if it names a file. -/
def World.dest_bytes (w : World) : Option Bytes :=
  match w.dest with
  | .absent => none
  | .old c => some c
  | .output => some w.out

/-- Effect of the publication step's calls on the destination path. -/
def dest_after (d : Dest) : List Event → Dest
  | [] => d
  | e :: es =>
    match e.call, e.ret with
    | .linkat_empty_path _, .ok _ => dest_after .output es
    | .linkat_proc _, .ok _ => dest_after .output es
    | .remove, .ok _ => dest_after .absent es
    | _, _ => dest_after d es

/-! ## Example runs -/

/-- A Linux 5.15 system with glibc 2.35. -/
def env_5_15 : Env :=
  { glibc := true, glibc_prereq_2_27 := true,
    release := "5.15.0-91-generic".toList, libc_version := "2.35".toList }

/-- Three blocks of 4096 bytes: `a`s, `b`s, `c`s. -/
def abc_file : Bytes :=
  List.replicate 4096 0x61 ++ List.replicate 4096 0x62 ++ List.replicate 4096 0x63

/-- One source (descriptor 4) holding `abc_file`, an empty output file, no
file under the destination path. -/
def abc_world : World :=
  { sources := [⟨4, abc_file, 0⟩], out := [], out_pos := 0, dest := .absent }

/-- Answers for `joinfiles src dst` on `abc_world` with block size 4096:
`copy_file_range` copies the first block, then reports `ENOSYS`; the clone
and everything after it succeed. -/
def abc_oracle : List Ret :=
  [ .ok 0,        -- uname
    .ok 0,        -- canonicalize_file_name
    .ok 0,        -- dirname
    .ok 3,        -- open O_TMPFILE
    .ok 4,        -- open argv[1]
    .ok 4096,     -- fstatfs: f_bsize
    .ok 12288,    -- fstat: st_size
    .ok 4096,     -- copy_file_range
    .err ENOSYS,  -- copy_file_range
    .ok 0,        -- ioctl FICLONERANGE
    .ok 12288,    -- lseek
    .ok 0,        -- close(fd_in)
    .ok 0,        -- linkat
    .ok 0 ]       -- close(fd_out)

/-! ## Definitions used to state the theorems -/

/-- A text at which the parser stops: the empty one, or one whose first
character is neither a digit nor a dot. -/
def stops (s : List Char) : Prop :=
  match s with
  | [] => True
  | c :: _ => isdigit c = false ∧ c ≠ '.'

instance (s : List Char) : Decidable (stops s) := by
  cases s <;> unfold stops <;> infer_instance

/-- The digits of one component, accumulated the way lines 47-48 do. -/
def digits_acc (x : Int) (ds : List Char) : Int :=
  ds.foldl (fun a c => wrap_int (wrap_int (a * 10) + ((c.toNat : Int) - 48))) x

/-- The run ended otherwise than by `exit(EXIT_SUCCESS)` or
`exit(EXIT_INVALIDARGUMENT)`: with the failure code, by the trap, or inside a
call the oracle has no answer for. -/
def Outcome.abnormal (o : Outcome) : Prop :=
  o = .exit EXIT_FAILURE ∨ o = .sigfpe ∨ ∃ c, o = .blocked c

/-- When the piece of program ends the run, it does so with an outcome in `P`. -/
def Res.ends {α : Type} (P : Outcome → Prop) : Res α → Prop
  | .ret _ _ _ => True
  | .halt o _ => P o

/-- What a call of the copy engine looks like: its arguments in terms of the
values `fd_size` and `remain` had when it was made (`e.fd_size`, `e.remain`),
and the tests that were passed on the way to it. -/
def Event.engine (bs fd_out : Nat) (e : Event) : Prop :=
  match e.call with
  | .copy_file_range _ fo count => fo = fd_out ∧ count = request_count e.remain max_count_cfr
  | .ficlonerange fo _ off len dst =>
    fo = fd_out ∧ off = 0 ∧ len = e.remain ∧ dst = e.fd_size
      ∧ 0 < bs ∧ e.fd_size % bs = 0 ∧ bs < e.remain
  | .lseek_end fo => fo = fd_out
  | .sendfile fo _ count =>
    fo = fd_out ∧ count = request_count e.remain max_count_sendfile ∧ 0 < e.remain
  | _ => False

/-- Calls of the copy loop: those of the engine, `fstat` and `close`. -/
def Event.shape (bs fd_out : Nat) (e : Event) : Prop :=
  match e.call with
  | .fstat _ => True
  | .close _ => True
  | _ => e.engine bs fd_out

/-- The piece of program `r`, started in `st`, appended to the log only events
that satisfy `P`. -/
def Res.emits {α : Type} (P : Event → Prop) (st : State) (r : Res α) : Prop :=
  ∃ new, r.state.trace = st.trace ++ new ∧ ∀ e ∈ new, P e

/-- The descriptors passed to `fstat`, in the order of the calls. -/
def visited (tr : List Event) : List Nat :=
  tr.filterMap fun e => match e.call with
    | .fstat fd => some fd
    | _ => none

/-- The descriptors passed to `close`, in the order of the calls. -/
def closed (tr : List Event) : List Nat :=
  tr.filterMap fun e => match e.call with
    | .close fd => some fd
    | _ => none

/-- The event is a `close`. -/
def Event.is_close (e : Event) : Bool :=
  match e.call with
  | .close _ => true
  | _ => false

/-- Bytes a logged call moved, as the program counts them: the value returned
by `copy_file_range` or `sendfile`, and for a clone the difference that line
215 computes. -/
def Event.moved (e : Event) : Nat :=
  match e.call, e.ret with
  | .copy_file_range _ _ _, .ok n => n
  | .sendfile _ _ _, .ok n => n
  | .lseek_end _, .ok eof => size_sub eof e.fd_size
  | _, _ => 0

/-- Sum of the bytes moved by the calls of a log. -/
def moved (tr : List Event) : Nat := (tr.map Event.moved).sum

/-- Size of a source as reported by a logged `fstat`. -/
def Event.size (e : Event) : Nat :=
  match e.call, e.ret with
  | .fstat _, .ok v => v % SIZE_T
  | _, _ => 0

/-- Sum of the sizes of the sources that a log has reached. -/
def sizes (tr : List Event) : Nat := (tr.map Event.size).sum

/-- The call returned at most what was requested: `copy_file_range` and
`sendfile` at most `count` bytes; after a clone of `remain` bytes at offset
`fd_size`, the end of the output is between `fd_size` and `fd_size + remain`. -/
def Event.honest (e : Event) : Prop :=
  match e.call, e.ret with
  | .copy_file_range _ _ count, .ok n => n ≤ count
  | .sendfile _ _ count, .ok n => n ≤ count
  | .lseek_end _, .ok eof => e.fd_size ≤ eof ∧ eof ≤ e.fd_size + e.remain
  | _, _ => True

instance (e : Event) : Decidable e.honest := by
  unfold Event.honest; split <;> infer_instance

/-- The accounting invariant. `remain` is a `size_t` (now and at every logged
call) and `fd_size` is the number of bytes moved, as a `size_t`. As long as
every call returned at most what was requested, the bytes still to read plus
the bytes moved are the bytes of the sources reached, and no call moved more
than remained. -/
def Conserved (st : State) : Prop :=
  (st.remain < SIZE_T ∧ (∀ e ∈ st.trace, e.remain < SIZE_T)
    ∧ st.fd_size = moved st.trace % SIZE_T) ∧
  ((∀ e ∈ st.trace, e.honest) →
    st.remain + moved st.trace = sizes st.trace
    ∧ ∀ e ∈ st.trace, e.moved ≤ e.remain)

/-- A piece of program ends in a state with `R` when it returns and with `H`
when it ends the run. -/
def Res.sat {α : Type} (R H : State → Prop) : Res α → Prop
  | .ret _ st _ => R st
  | .halt _ st => H st

/-- The variables of the copy loop as `main` has them on entering it
(`fd_size = 0`, line 130), with an empty log. -/
def State.at_loop (st : State) : State :=
  { st with fd_size := 0, remain := 0, trace := [] }

/-- The event is a `linkat` that succeeded. -/
def Event.link_ok (e : Event) : Bool :=
  match e.call, e.ret with
  | .linkat_empty_path _, .ok _ => true
  | .linkat_proc _, .ok _ => true
  | _, _ => false

/-- The event is a `remove` that succeeded. -/
def Event.remove_ok (e : Event) : Bool :=
  match e.call, e.ret with
  | .remove, .ok _ => true
  | _, _ => false

/-- A run of `joinfiles src dst` by an unprivileged user, with a destination
that exists: the 10 byte source is copied into the anonymous file; `linkat`
with `AT_EMPTY_PATH` is refused (`ENOENT`), `linkat` through `/proc/self/fd`
reports `EEXIST`, `remove(outfile)` succeeds, and the second `linkat` fails
(`EXDEV`, 18). -/
def lost_oracle : List Ret :=
  [ .ok 0,        -- uname
    .ok 0,        -- canonicalize_file_name
    .ok 0,        -- dirname
    .ok 3,        -- open O_TMPFILE
    .ok 4,        -- open argv[1]
    .ok 4096,     -- fstatfs: f_bsize
    .ok 10,       -- fstat: st_size
    .ok 10,       -- copy_file_range
    .ok 0,        -- close(fd_in)
    .err ENOENT,  -- linkat AT_EMPTY_PATH
    .err EEXIST,  -- linkat /proc/self/fd/3
    .ok 0,        -- remove
    .err 18 ]     -- linkat /proc/self/fd/3

/-- The files of that run: the source (descriptor 4) holds ten `b`s, the
destination path names a file holding `old`. -/
def lost_world : World :=
  { sources := [⟨4, List.replicate 10 0x62, 0⟩], out := [], out_pos := 0,
    dest := .old [0x6f, 0x6c, 0x64] }

/-- No `linkat` in the log has succeeded. -/
def NoLink (st : State) : Prop := ∀ e ∈ st.trace, e.link_ok = false

/-- After `link_or_replace`: it returned a success, or no `linkat` has
succeeded. -/
def Res.link_post : Res Ret → Prop
  | .ret (.ok _) _ _ => True
  | .ret (.err _) st _ => NoLink st
  | .halt _ st => NoLink st

/-- The bytes of the sources of a world, in the order of the sources. -/
def World.concat (w : World) : Bytes :=
  (w.sources.map Source.content).flatten

/-- The blocks `a`, `a`, `b`. -/
def aab_file : Bytes :=
  List.replicate 4096 0x61 ++ List.replicate 4096 0x61 ++ List.replicate 4096 0x62

/-- The log of the run of `abc_oracle`. -/
def abc_trace : List Event :=
  [ ⟨.uname, .ok 0, 0, 0⟩,
    ⟨.canonicalize_file_name, .ok 0, 0, 0⟩,
    ⟨.dirname, .ok 0, 0, 0⟩,
    ⟨.open_tmpfile, .ok 3, 0, 0⟩,
    ⟨.open_input 1, .ok 4, 0, 0⟩,
    ⟨.fstatfs 3, .ok 4096, 0, 0⟩,
    ⟨.fstat 4, .ok 12288, 0, 0⟩,
    ⟨.copy_file_range 4 3 12288, .ok 4096, 0, 12288⟩,
    ⟨.copy_file_range 4 3 8192, .err ENOSYS, 4096, 8192⟩,
    ⟨.ficlonerange 3 4 0 8192 4096, .ok 0, 4096, 8192⟩,
    ⟨.lseek_end 3, .ok 12288, 4096, 8192⟩,
    ⟨.close 4, .ok 0, 12288, 0⟩,
    ⟨.linkat_empty_path 3, .ok 0, 12288, 0⟩,
    ⟨.close 3, .ok 0, 12288, 0⟩ ]

/-- As `abc_oracle`, but the second `copy_file_range` is interrupted (`EINTR`)
instead of reporting `ENOSYS`. -/
def abc_oracle_eintr : List Ret :=
  abc_oracle.set 8 (.err EINTR)

/-- The log of the run of `abc_oracle_eintr`. -/
def abc_trace_eintr : List Event :=
  abc_trace.set 8 ⟨.copy_file_range 4 3 8192, .err EINTR, 4096, 8192⟩

/-- Scenario A of the specification: a source of 4096 `a`s (descriptor 4) and
a source of 10 `b`s (descriptor 5). -/
def scenario_a_world : World :=
  { sources := [⟨4, List.replicate 4096 0x61, 0⟩, ⟨5, List.replicate 10 0x62, 0⟩],
    out := [], out_pos := 0, dest := .absent }

/-- Answers for `joinfiles src1 src2 dst` on `scenario_a_world`, every call
succeeding and `copy_file_range` copying each source in one call. -/
def scenario_a_oracle : List Ret :=
  [ .ok 0,        -- uname
    .ok 0,        -- canonicalize_file_name
    .ok 0,        -- dirname
    .ok 3,        -- open O_TMPFILE
    .ok 4,        -- open argv[1]
    .ok 5,        -- open argv[2]
    .ok 4096,     -- fstatfs: f_bsize
    .ok 4096,     -- fstat: st_size
    .ok 4096,     -- copy_file_range
    .ok 0,        -- close(fd_in)
    .ok 10,       -- fstat: st_size
    .ok 10,       -- copy_file_range
    .ok 0,        -- close(fd_in)
    .ok 0,        -- linkat
    .ok 0 ]       -- close(fd_out)

/-- The log of the run of `scenario_a_oracle`. -/
def scenario_a_trace : List Event :=
  [ ⟨.uname, .ok 0, 0, 0⟩,
    ⟨.canonicalize_file_name, .ok 0, 0, 0⟩,
    ⟨.dirname, .ok 0, 0, 0⟩,
    ⟨.open_tmpfile, .ok 3, 0, 0⟩,
    ⟨.open_input 1, .ok 4, 0, 0⟩,
    ⟨.open_input 2, .ok 5, 0, 0⟩,
    ⟨.fstatfs 3, .ok 4096, 0, 0⟩,
    ⟨.fstat 4, .ok 4096, 0, 0⟩,
    ⟨.copy_file_range 4 3 4096, .ok 4096, 0, 4096⟩,
    ⟨.close 4, .ok 0, 4096, 0⟩,
    ⟨.fstat 5, .ok 10, 4096, 0⟩,
    ⟨.copy_file_range 5 3 10, .ok 10, 4096, 10⟩,
    ⟨.close 5, .ok 0, 4106, 0⟩,
    ⟨.linkat_empty_path 3, .ok 0, 4106, 0⟩,
    ⟨.close 3, .ok 0, 4106, 0⟩ ]

/-- The descriptors that the `open` calls for the sources returned, in the
order of the calls. -/
def opened (tr : List Event) : List Nat :=
  tr.filterMap fun e => match e.call, e.ret with
    | .open_input _, .ok fd => some fd
    | _, _ => none

/-- A call outside the copy loop that is not the `open` of a source: neither
`fstat`, nor `close`, nor `open` of a source. -/
def Event.setup (e : Event) : Prop :=
  match e.call with
  | .fstat _ => False
  | .close _ => False
  | .open_input _ => False
  | _ => True

/-- The piece of program ends the run (it does not return). -/
def Res.halts {α : Type} : Res α → Prop
  | .ret _ _ _ => False
  | .halt _ _ => True

/-- The event is a `copy_file_range` call. -/
def Event.is_cfr (e : Event) : Bool :=
  match e.call with
  | .copy_file_range _ _ _ => true
  | _ => false

/-- The event is a `copy_file_range` call that failed with `ENOSYS`. -/
def Event.is_enosys (e : Event) : Bool :=
  match e.call, e.ret with
  | .copy_file_range _ _ _, .err x => decide (x = ENOSYS)
  | _, _ => false

/-- Some `copy_file_range` call of the log comes after one that failed with
`ENOSYS`. -/
def cfr_after_enosys : List Event → Bool
  | [] => false
  | e :: es => (e.is_enosys && es.any Event.is_cfr) || cfr_after_enosys es

/-- The invariant of the flag `has_copy_file_range`: no `copy_file_range` call
has followed an `ENOSYS`, and while the flag is set no call has reported
`ENOSYS`. -/
def Disabled (st : State) : Prop :=
  cfr_after_enosys st.trace = false
  ∧ (st.has_copy_file_range = true → st.trace.any Event.is_enosys = false)

/-! ## Theorems: version numbers -/

theorem to_uint_wrap_int (x : Int) : to_uint (wrap_int x) = to_uint x := by
  unfold to_uint wrap_int
  congr 1
  norm_num
  omega

/-- Without wrap-around the encoding is `major * 2^24 + minor * 2^16 + patch`. -/
theorem as_version_eq_sum (a b c : Nat) (ha : a < 256) (hb : b < 256) (hc : c < 65536) :
    as_version a b c = a * 2 ^ 24 + b * 2 ^ 16 + c := by
  unfold as_version UINT_SIZE
  have h1 : a % 2 ^ 32 = a := Nat.mod_eq_of_lt (by omega)
  have h2 : b % 2 ^ 32 = b := Nat.mod_eq_of_lt (by omega)
  have h3 : c % 2 ^ 32 = c := Nat.mod_eq_of_lt (by omega)
  rw [h1, h2, h3, Nat.shiftLeft_eq, Nat.shiftLeft_eq]
  have h4 : a * 2 ^ 24 % 2 ^ 32 = 2 ^ 24 * a := by
    rw [Nat.mod_eq_of_lt (by omega)]; ring
  have h5 : b * 2 ^ 16 % 2 ^ 32 = b * 2 ^ 16 := Nat.mod_eq_of_lt (by omega)
  rw [h4, h5, ← Nat.mul_add_lt_is_or (by omega : b * 2 ^ 16 < 2 ^ 24) a]
  have h6 : 2 ^ 24 * a + b * 2 ^ 16 = 2 ^ 16 * (a * 2 ^ 8 + b) := by ring
  rw [h6, ← Nat.mul_add_lt_is_or (by omega : c < 2 ^ 16)]
  ring

/-- Claim C8, counterexample: `0.256.0` and `1.0.0` have the same encoding, so
the encodings compare `≥` although `(0,256,0) < (1,0,0)` lexicographically. -/
theorem as_version_not_lex :
    ¬ (as_version 0 256 0 ≥ as_version 1 0 0 ↔ lex_ge 0 256 0 1 0 0) := by
  decide

/-- Claim C8, amended: for triples whose components fit their fields
(`major < 2^8`, `minor < 2^8`, `patch < 2^16`), comparing the `as_version`
encodings is comparing the triples lexicographically. -/
theorem as_version_ge_iff_lex (a1 a2 a3 b1 b2 b3 : Nat)
    (ha1 : a1 < 256) (ha2 : a2 < 256) (ha3 : a3 < 65536)
    (hb1 : b1 < 256) (hb2 : b2 < 256) (hb3 : b3 < 65536) :
    as_version a1 a2 a3 ≥ as_version b1 b2 b3 ↔ lex_ge a1 a2 a3 b1 b2 b3 := by
  rw [as_version_eq_sum a1 a2 a3 ha1 ha2 ha3, as_version_eq_sum b1 b2 b3 hb1 hb2 hb3]
  unfold lex_ge
  omega

theorem as_version_ge_iff_lex_witness :
    as_version 5 15 0 ≥ as_version 5 3 0 ↔ lex_ge 5 15 0 5 3 0 :=
  as_version_ge_iff_lex 5 15 0 5 3 0 (by decide) (by decide) (by decide) (by decide)
    (by decide) (by decide)

theorem Ver.set_get (ver : Ver) (i : Nat) : ver.set i (ver.get i) = ver := by
  rcases i with _ | _ | i <;> rfl

theorem Ver.set_set (ver : Ver) (i : Nat) (x y : Int) :
    (ver.set i x).set i y = ver.set i y := by
  rcases i with _ | _ | i <;> rfl

theorem Ver.get_set (ver : Ver) (i : Nat) (x : Int) : (ver.set i x).get i = x := by
  rcases i with _ | _ | i <;> rfl

theorem isdigit_toNat {c : Char} (h : isdigit c = true) : 48 ≤ c.toNat ∧ c.toNat ≤ 57 := by
  simpa [isdigit] using h

/-- The loop consumes a run of digits into `ver[i]`. -/
theorem version_loop_digits (ds : List Char) (hds : ∀ c ∈ ds, isdigit c = true) :
    ∀ (rest : List Char) (ver : Ver) (i : Nat), i < 3 →
      version_loop (ds ++ rest) ver i
        = version_loop rest (ver.set i (digits_acc (ver.get i) ds)) i := by
  induction ds with
  | nil =>
    intro rest ver i _
    simp [digits_acc, Ver.set_get]
  | cons c ds ih =>
    intro rest ver i hi
    have hc := hds c (List.mem_cons_self _ _)
    have hc2 := isdigit_toNat hc
    have hne : ¬ (c.toNat = 0 ∨ ¬ i < 3) := by omega
    rw [List.cons_append, version_loop, if_neg hne, if_pos hc]
    simp only []
    rw [ih (fun d hd => hds d (List.mem_cons_of_mem _ hd)) rest _ i hi]
    simp [digits_acc, Ver.get_set, Ver.set_set]

/-- The loop stops at a text that `stops`. -/
theorem version_loop_stops (s : List Char) (hs : stops s) (ver : Ver) (i : Nat) :
    version_loop s ver i = ver := by
  cases s with
  | nil => rfl
  | cons c t =>
    have h : isdigit c = false ∧ c ≠ '.' := hs
    rw [version_loop]
    by_cases h0 : c.toNat = 0 ∨ ¬ i < 3
    · rw [if_pos h0]
    · rw [if_neg h0, if_neg (by simp [h.1]), if_pos h.2]

/-- The loop steps over a dot to the next component. -/
theorem version_loop_dot (rest : List Char) (ver : Ver) (i : Nat) (hi : i < 3) :
    version_loop ('.' :: rest) ver i = version_loop rest ver (i + 1) := by
  rw [version_loop]
  have h0 : ¬ ('.'.toNat = 0 ∨ ¬ i < 3) := by
    have : '.'.toNat = 46 := by decide
    omega
  have h1 : ¬ (isdigit '.' = true) := by decide
  rw [if_neg h0, if_neg h1, if_neg (by simp)]

theorem foldl_digits_congr (ds : List Char) :
    ∀ a b : Nat, a % UINT_SIZE = b % UINT_SIZE →
      (ds.foldl (fun a c => 10 * a + (c.toNat - 48)) a) % UINT_SIZE
        = (ds.foldl (fun a c => 10 * a + (c.toNat - 48)) b) % UINT_SIZE := by
  induction ds with
  | nil => intro a b h; simpa using h
  | cons c ds ih =>
    intro a b h
    simp only [List.foldl_cons]
    apply ih
    unfold UINT_SIZE at h ⊢
    omega

/-- Accumulating digits computes the numeral's value modulo `2^32`. -/
theorem to_uint_digits_acc (ds : List Char) (hds : ∀ c ∈ ds, isdigit c = true) :
    ∀ x : Int, to_uint (digits_acc x ds)
      = (ds.foldl (fun a c => 10 * a + (c.toNat - 48)) (to_uint x)) % UINT_SIZE := by
  induction ds with
  | nil =>
    intro x
    simp only [digits_acc, List.foldl_nil]
    unfold to_uint UINT_SIZE
    omega
  | cons c ds ih =>
    intro x
    have hc := isdigit_toNat (hds c (List.mem_cons_self _ _))
    have ih2 := ih (fun d hd => hds d (List.mem_cons_of_mem _ hd))
    simp only [digits_acc, List.foldl_cons] at ih2 ⊢
    rw [ih2, to_uint_wrap_int]
    apply foldl_digits_congr
    unfold to_uint wrap_int UINT_SIZE
    norm_num
    omega

theorem as_version_congr {a b c a2 b2 c2 : Nat} (ha : a % UINT_SIZE = a2 % UINT_SIZE)
    (hb : b % UINT_SIZE = b2 % UINT_SIZE) (hc : c % UINT_SIZE = c2 % UINT_SIZE) :
    as_version a b c = as_version a2 b2 c2 := by
  unfold as_version
  rw [ha, hb, hc]

theorem to_uint_digits_acc_zero (ds : List Char) (hds : ∀ c ∈ ds, isdigit c = true) :
    to_uint (digits_acc 0 ds) % UINT_SIZE = decimal ds % UINT_SIZE := by
  rw [to_uint_digits_acc ds hds 0, Nat.mod_mod]
  rfl

/-- Claim C9: on a text `M`, `M.N` or `M.N.P` (decimal numerals), followed by
nothing or by a suffix that starts with a character that is neither a digit
nor a dot, `version_from` returns `as_version M N P`, absent components being
`0`. (`int` arithmetic wraps, and `as_version` takes its arguments modulo
`2^32`.) -/
theorem version_from_numerals (M N P s : List Char)
    (hM : ∀ c ∈ M, isdigit c = true) (hN : ∀ c ∈ N, isdigit c = true)
    (hP : ∀ c ∈ P, isdigit c = true) (hs : stops s) :
    version_from (M ++ s) = as_version (decimal M) 0 0
    ∧ version_from (M ++ '.' :: (N ++ s)) = as_version (decimal M) (decimal N) 0
    ∧ version_from (M ++ '.' :: (N ++ '.' :: (P ++ s)))
        = as_version (decimal M) (decimal N) (decimal P) := by
  refine ⟨?_, ?_, ?_⟩
  · unfold version_from
    rw [version_loop_digits M hM s _ 0 (by omega), version_loop_stops s hs]
    exact as_version_congr (to_uint_digits_acc_zero M hM) rfl rfl
  · unfold version_from
    rw [version_loop_digits M hM _ _ 0 (by omega), version_loop_dot _ _ 0 (by omega),
      version_loop_digits N hN s _ 1 (by omega), version_loop_stops s hs]
    exact as_version_congr (to_uint_digits_acc_zero M hM) (to_uint_digits_acc_zero N hN) rfl
  · unfold version_from
    rw [version_loop_digits M hM _ _ 0 (by omega), version_loop_dot _ _ 0 (by omega),
      version_loop_digits N hN _ _ 1 (by omega), version_loop_dot _ _ 1 (by omega),
      version_loop_digits P hP s _ 2 (by omega), version_loop_stops s hs]
    exact as_version_congr (to_uint_digits_acc_zero M hM) (to_uint_digits_acc_zero N hN)
      (to_uint_digits_acc_zero P hP)

theorem version_from_numerals_witness :
    version_from "5".toList = as_version 5 0 0
    ∧ version_from "5.3".toList = as_version 5 3 0
    ∧ version_from "5.15.0-91-generic".toList = as_version 5 15 0 :=
  ⟨(version_from_numerals "5".toList [] [] [] (by decide) (by decide) (by decide)
      (by decide)).1,
   (version_from_numerals "5".toList "3".toList [] [] (by decide) (by decide) (by decide)
      (by decide)).2.1,
   (version_from_numerals "5".toList "15".toList "0".toList "-91-generic".toList (by decide)
      (by decide) (by decide) (by decide)).2.2⟩

/-! ## Theorems: exit codes -/

theorem ends_sys (c : Call) (st : State) (rs : List Ret) :
    (sys c st rs).ends Outcome.abnormal := by
  cases rs with
  | nil => exact Or.inr (Or.inr ⟨_, rfl⟩)
  | cons r rs => trivial

theorem ends_bind {α β : Type} {P : Outcome → Prop} {m : Res α}
    {f : α → State → List Ret → Res β}
    (hm : m.ends P) (hf : ∀ a st rs, (f a st rs).ends P) : (m.bind f).ends P := by
  cases m with
  | ret a st rs => exact hf a st rs
  | halt o st => exact hm

theorem ends_failure {α : Type} (st : State) :
    (Res.halt (.exit EXIT_FAILURE) st : Res α).ends Outcome.abnormal :=
  Or.inl rfl

theorem ends_ret {α : Type} {P : Outcome → Prop} (a : α) (st : State) (rs : List Ret) :
    (Res.ret a st rs).ends P := trivial

theorem ends_mono {α : Type} {P Q : Outcome → Prop} {m : Res α} (h : ∀ o, P o → Q o)
    (hm : m.ends P) : m.ends Q := by
  cases m with
  | ret a st rs => trivial
  | halt o st => exact h o hm

theorem ends_init_features (env : Env) (st : State) (rs : List Ret) :
    (init_features env st rs).ends Outcome.abnormal := by
  unfold init_features
  refine ends_bind (ends_sys _ _ _) (fun r st rs => ?_)
  cases r
  · simp only []
    split <;> exact ends_ret _ _ _
  · exact ends_failure _

theorem ends_open_output (st : State) (rs : List Ret) : (open_output st rs).ends Outcome.abnormal := by
  unfold open_output directory_from_filename
  repeat' first
    | exact ends_ret _ _ _
    | exact ends_failure _
    | exact ends_sys _ _ _
    | apply ends_bind
    | intro _
    | split

theorem ends_open_inputs (k : Nat) :
    ∀ (i : Nat) (st : State) (rs : List Ret), (open_inputs k i st rs).ends Outcome.abnormal := by
  induction k with
  | zero => intro i st rs; exact ends_ret _ _ _
  | succ k ih =>
    intro i st rs
    unfold open_inputs
    refine ends_bind (ends_sys _ _ _) (fun r st rs => ?_)
    cases r
    · exact ends_bind (ih _ _ _) (fun _ _ _ => ends_ret _ _ _)
    · exact ends_failure _

theorem ends_copy_file_range_loop (fd_in fd_out : Nat) (rs : List Ret) :
    ∀ st : State, (copy_file_range_loop fd_in fd_out rs st).ends Outcome.abnormal := by
  induction rs with
  | nil => intro st; exact Or.inr (Or.inr ⟨_, rfl⟩)
  | cons r rs ih =>
    intro st
    unfold copy_file_range_loop
    cases r <;> simp only []
    repeat' first
      | exact ih _
      | exact ends_ret _ _ _
      | exact ends_failure _
      | split

theorem ends_sendfile_loop (fd_out fd_in : Nat) (rs : List Ret) :
    ∀ st : State, (sendfile_loop fd_out fd_in rs st).ends Outcome.abnormal := by
  induction rs with
  | nil => intro st; exact Or.inr (Or.inr ⟨_, rfl⟩)
  | cons r rs ih =>
    intro st
    unfold sendfile_loop
    cases r <;> simp only []
    repeat' first
      | exact ih _
      | exact ends_ret _ _ _
      | exact ends_failure _
      | split

theorem ends_ioctl_loop (c : Call) (rs : List Ret) :
    ∀ st : State, (ioctl_loop c rs st).ends Outcome.abnormal := by
  induction rs with
  | nil => intro st; exact Or.inr (Or.inr ⟨_, rfl⟩)
  | cons r rs ih =>
    intro st
    unfold ioctl_loop
    split
    · exact ih _
    · exact ends_ret _ _ _

theorem ends_clone_stage (bs fd_in fd_out : Nat) (st : State) (rs : List Ret) :
    (clone_stage bs fd_in fd_out st rs).ends Outcome.abnormal := by
  unfold clone_stage
  repeat' first
    | exact ends_ret _ _ _
    | exact ends_failure _
    | exact ends_sys _ _ _
    | exact ends_ioctl_loop _ _ _
    | exact Or.inr (Or.inl rfl)
    | apply ends_bind
    | intro _
    | split

theorem ends_copy_one (env : Env) (bs fd_out fd_in : Nat) (st : State) (rs : List Ret) :
    (copy_one env bs fd_out fd_in st rs).ends Outcome.abnormal := by
  unfold copy_one transfer bulk_stage sendfile_stage close_source
  repeat' first
    | exact ends_ret _ _ _
    | exact ends_failure _
    | exact ends_sys _ _ _
    | exact ends_copy_file_range_loop _ _ _ _
    | exact ends_sendfile_loop _ _ _ _
    | exact ends_clone_stage _ _ _ _ _
    | apply ends_bind
    | intro _
    | split

theorem ends_copy_loop (env : Env) (bs fd_out : Nat) (fds : List Nat) :
    ∀ (st : State) (rs : List Ret), (copy_loop env bs fd_out fds st rs).ends Outcome.abnormal := by
  induction fds with
  | nil => intro st rs; exact ends_ret _ _ _
  | cons fd fds ih =>
    intro st rs
    unfold copy_loop
    split
    · exact ends_ret _ _ _
    · exact ends_bind (ends_copy_one _ _ _ _ _ _) (fun _ st rs => ih st rs)

theorem ends_publish (fd_out : Nat) (st : State) (rs : List Ret) :
    (publish fd_out st rs).ends Outcome.abnormal := by
  unfold publish link_or_replace
  repeat' first
    | exact ends_ret _ _ _
    | exact ends_failure _
    | exact ends_sys _ _ _
    | apply ends_bind
    | intro _
    | split

theorem ends_or {α : Type} {m : Res α} (hm : m.ends Outcome.abnormal) :
    m.ends (fun o => o = .exit EXIT_SUCCESS ∨ o.abnormal) :=
  ends_mono (fun _ h => Or.inr h) hm

/-- The run of `main_body` ends with the success code or abnormally. -/
theorem ends_main_body (env : Env) (argc : Nat) (st : State) (rs : List Ret) :
    (main_body env argc st rs).ends (fun o => o = .exit EXIT_SUCCESS ∨ o.abnormal) := by
  unfold main_body
  repeat' first
    | exact ends_ret _ _ _
    | exact ends_or (ends_failure _)
    | exact ends_or (ends_sys _ _ _)
    | exact ends_or (ends_init_features _ _ _)
    | exact ends_or (ends_open_output _ _)
    | exact ends_or (ends_open_inputs _ _ _ _)
    | exact ends_or (ends_copy_loop _ _ _ _ _ _)
    | exact ends_or (ends_publish _ _ _)
    | exact Or.inl rfl
    | apply ends_bind
    | intro _
    | split

theorem abnormal_ne_invalid {o : Outcome} (h : o = .exit EXIT_SUCCESS ∨ o.abnormal) :
    o ≠ .exit EXIT_INVALIDARGUMENT := by
  rcases h with h | h | h | ⟨c, h⟩ <;> rw [h] <;> simp [EXIT_SUCCESS, EXIT_FAILURE,
    EXIT_INVALIDARGUMENT]

/-- Claim C3: with `argc < 3`, `main` ends with the invalid-argument code `2`
without having made any call (no probe, nothing opened or created, the state
is the initial one); that code differs from the success code and from the
failure code; with `argc ≥ 3` the run never ends with it. -/
theorem main_invalid_argument (env : Env) (argc : Nat) (oracle : List Ret) :
    (argc < 3 → main env argc oracle = ⟨.exit EXIT_INVALIDARGUMENT, State.init⟩
        ∧ (main env argc oracle).state.trace = [])
    ∧ EXIT_INVALIDARGUMENT = 2
    ∧ EXIT_INVALIDARGUMENT ≠ EXIT_SUCCESS
    ∧ EXIT_INVALIDARGUMENT ≠ EXIT_FAILURE
    ∧ (3 ≤ argc → (main env argc oracle).outcome ≠ .exit EXIT_INVALIDARGUMENT) := by
  refine ⟨?_, rfl, by decide, by decide, ?_⟩
  · intro h
    simp [main, h, State.init]
  · intro h
    have hlt : ¬ argc < 3 := by omega
    have hb := ends_main_body env argc State.init oracle
    simp only [main, hlt, if_false]
    cases hm : main_body env argc State.init oracle with
    | ret a st rs => simp [Res.run, EXIT_SUCCESS, EXIT_INVALIDARGUMENT]
    | halt o st =>
      rw [hm] at hb
      exact abnormal_ne_invalid hb

theorem main_invalid_argument_witness :
    (main env_5_15 2 abc_oracle = ⟨.exit EXIT_INVALIDARGUMENT, State.init⟩
      ∧ (main env_5_15 2 abc_oracle).state.trace = [])
    ∧ (main env_5_15 3 abc_oracle).outcome ≠ .exit EXIT_INVALIDARGUMENT :=
  ⟨(main_invalid_argument env_5_15 2 abc_oracle).1 (by decide),
   (main_invalid_argument env_5_15 3 abc_oracle).2.2.2.2 (by decide)⟩

/-! ## Theorems: what the copy engine asks for -/

theorem emits_of_trace_eq {α : Type} {P : Event → Prop} {st : State} {r : Res α}
    (h : r.state.trace = st.trace) : r.emits P st :=
  ⟨[], by simpa using h, by simp⟩

theorem emits_log {α : Type} {P : Event → Prop} {st : State} {r : Res α} (c : Call) (x : Ret)
    (hP : P ⟨c, x, st.fd_size, st.remain⟩) (h : r.emits P (st.log c x)) : r.emits P st := by
  obtain ⟨new, h1, h2⟩ := h
  refine ⟨⟨c, x, st.fd_size, st.remain⟩ :: new, ?_, ?_⟩
  · simpa [State.log] using h1
  · intro e he
    rcases List.mem_cons.1 he with rfl | he
    · exact hP
    · exact h2 e he

theorem emits_trans {α : Type} {P : Event → Prop} {st t : State} {r : Res α}
    (h1 : ∃ new, t.trace = st.trace ++ new ∧ ∀ e ∈ new, P e) (h2 : r.emits P t) :
    r.emits P st := by
  obtain ⟨n1, e1, p1⟩ := h1
  obtain ⟨n2, e2, p2⟩ := h2
  refine ⟨n1 ++ n2, by rw [e2, e1, List.append_assoc], ?_⟩
  intro e he
  rcases List.mem_append.1 he with h | h
  · exact p1 e h
  · exact p2 e h

theorem emits_bind {α β : Type} {P : Event → Prop} {st : State} {m : Res α}
    {f : α → State → List Ret → Res β}
    (hm : m.emits P st) (hf : ∀ a st2 rs, (f a st2 rs).emits P st2) :
    (m.bind f).emits P st := by
  cases m with
  | ret a st2 rs => exact emits_trans hm (hf a st2 rs)
  | halt o st2 => exact hm

theorem emits_sys {P : Event → Prop} (c : Call) (st : State) (rs : List Ret)
    (hP : ∀ x, P ⟨c, x, st.fd_size, st.remain⟩) : (sys c st rs).emits P st := by
  cases rs with
  | nil => exact emits_of_trace_eq rfl
  | cons x rs => exact emits_log c x (hP x) (emits_of_trace_eq rfl)

theorem emits_mono {α : Type} {P Q : Event → Prop} {st : State} {r : Res α}
    (hPQ : ∀ e, P e → Q e) (h : r.emits P st) : r.emits Q st := by
  obtain ⟨new, h1, h2⟩ := h
  exact ⟨new, h1, fun e he => hPQ e (h2 e he)⟩

theorem emits_copy_file_range_loop (bs fd_in fd_out : Nat) (rs : List Ret) :
    ∀ st : State, (copy_file_range_loop fd_in fd_out rs st).emits (Event.engine bs fd_out) st := by
  induction rs with
  | nil => intro st; exact emits_of_trace_eq rfl
  | cons r rs ih =>
    intro st
    unfold copy_file_range_loop
    refine emits_log (.copy_file_range fd_in fd_out (request_count st.remain max_count_cfr)) r
      (by simp [Event.engine]) ?_
    cases r <;> simp only []
    repeat' first
      | exact emits_trans ⟨[], by simp [State.advance], by simp⟩ (ih _)
      | exact emits_of_trace_eq rfl
      | split

theorem emits_sendfile_loop (bs fd_out fd_in : Nat) (rs : List Ret) :
    ∀ st : State, 0 < st.remain →
      (sendfile_loop fd_out fd_in rs st).emits (Event.engine bs fd_out) st := by
  induction rs with
  | nil => intro st _; exact emits_of_trace_eq rfl
  | cons r rs ih =>
    intro st hst
    unfold sendfile_loop
    refine emits_log (.sendfile fd_out fd_in (request_count st.remain max_count_sendfile)) r
      (by simp [Event.engine, hst]) ?_
    cases r <;> simp only []
    · split
      · rename_i h
        exact emits_trans ⟨[], by simp [State.advance], by simp⟩ (ih _ h.1)
      · exact emits_of_trace_eq rfl
    · split <;> exact emits_of_trace_eq rfl

theorem emits_ioctl_loop {P : Event → Prop} (c : Call) (rs : List Ret) :
    ∀ st : State, (∀ x, P ⟨c, x, st.fd_size, st.remain⟩) →
      (ioctl_loop c rs st).emits P st := by
  induction rs with
  | nil => intro st _; exact emits_of_trace_eq rfl
  | cons r rs ih =>
    intro st hP
    unfold ioctl_loop
    split
    · exact emits_log c r (hP r) (ih _ hP)
    · exact emits_log c r (hP r) (emits_of_trace_eq rfl)

theorem emits_clone_stage (bs fd_in fd_out : Nat) (st : State) (rs : List Ret) :
    (clone_stage bs fd_in fd_out st rs).emits (Event.engine bs fd_out) st := by
  unfold clone_stage
  split
  · rename_i h1
    split
    · exact emits_of_trace_eq rfl
    · rename_i h2
      split
      · rename_i h3
        have hrem : bs < st.remain := by
          simp only [Bool.and_eq_true, decide_eq_true_eq] at h1
          exact h1.2
        refine emits_bind (emits_ioctl_loop _ rs st (fun x => ?_)) (fun n st2 rs2 => ?_)
        · simp only [Event.engine, true_and]
          exact ⟨Nat.pos_of_ne_zero h2, h3, hrem⟩
        · cases n <;> simp only []
          · refine emits_bind (emits_sys _ _ _ (fun x => by simp [Event.engine]))
              (fun r st3 rs3 => ?_)
            cases r <;> exact emits_of_trace_eq rfl
          · split <;> exact emits_of_trace_eq rfl
      · exact emits_of_trace_eq rfl
  · exact emits_of_trace_eq rfl

theorem engine_shape {bs fd_out : Nat} (e : Event) (h : e.engine bs fd_out) :
    e.shape bs fd_out := by
  unfold Event.shape
  split <;> trivial

theorem emits_bulk_stage (env : Env) (bs fd_in fd_out : Nat) (st : State) (rs : List Ret) :
    (bulk_stage env fd_in fd_out st rs).emits (Event.engine bs fd_out) st := by
  unfold bulk_stage
  split
  · exact emits_copy_file_range_loop bs fd_in fd_out rs st
  · exact emits_of_trace_eq rfl

theorem emits_sendfile_stage (bs fd_out fd_in : Nat) (st : State) (rs : List Ret) :
    (sendfile_stage fd_out fd_in st rs).emits (Event.engine bs fd_out) st := by
  unfold sendfile_stage
  split
  · rename_i h
    exact emits_sendfile_loop bs fd_out fd_in rs st h
  · exact emits_of_trace_eq rfl

theorem emits_close_source (bs fd_out fd_in : Nat) (st : State) (rs : List Ret) :
    (close_source fd_in st rs).emits (Event.shape bs fd_out) st := by
  unfold close_source
  refine emits_bind (emits_sys _ _ _ (fun x => by simp [Event.shape])) (fun _ st2 rs2 => ?_)
  split <;> exact emits_of_trace_eq rfl

theorem emits_transfer (env : Env) (bs fd_out fd_in : Nat) (st : State) (rs : List Ret) :
    (transfer env bs fd_out fd_in st rs).emits (Event.engine bs fd_out) st := by
  unfold transfer
  refine emits_bind (emits_bulk_stage env bs fd_in fd_out _ _) (fun _ st3 rs3 => ?_)
  refine emits_bind (emits_clone_stage bs fd_in fd_out _ _) (fun _ st4 rs4 => ?_)
  exact emits_sendfile_stage bs fd_out fd_in _ _

theorem emits_copy_one (env : Env) (bs fd_out fd_in : Nat) (st : State) (rs : List Ret) :
    (copy_one env bs fd_out fd_in st rs).emits (Event.shape bs fd_out) st := by
  unfold copy_one
  refine emits_bind (emits_sys _ _ _ (fun x => by simp [Event.shape])) (fun r st2 rs2 => ?_)
  cases r <;> simp only []
  · rename_i v
    refine emits_trans (t := { st2 with remain := v % SIZE_T }) ⟨[], by simp, by simp⟩ ?_
    refine emits_bind (emits_mono engine_shape (emits_transfer env bs fd_out fd_in _ _))
      (fun _ st3 rs3 => ?_)
    exact emits_close_source bs fd_out fd_in _ _
  · exact emits_of_trace_eq rfl

theorem emits_copy_loop (env : Env) (bs fd_out : Nat) (fds : List Nat) :
    ∀ (st : State) (rs : List Ret),
      (copy_loop env bs fd_out fds st rs).emits (Event.shape bs fd_out) st := by
  induction fds with
  | nil => intro st rs; exact emits_of_trace_eq rfl
  | cons fd fds ih =>
    intro st rs
    unfold copy_loop
    split
    · exact emits_of_trace_eq rfl
    · exact emits_bind (emits_copy_one env bs fd_out fd st rs) (fun _ st2 rs2 => ih st2 rs2)

/-- Every event of a copy loop that starts with an empty log has the shape of
a copy-loop call. -/
theorem copy_loop_shape (env : Env) (bs fd_out : Nat) (fds : List Nat) (st : State)
    (rs : List Ret) :
    ∀ e ∈ (copy_loop env bs fd_out fds { st with trace := [] } rs).state.trace,
      e.shape bs fd_out := by
  obtain ⟨new, h1, h2⟩ := emits_copy_loop env bs fd_out fds { st with trace := [] } rs
  intro e he
  rw [h1] at he
  exact h2 e (by simpa using he)

/-- Claim C5. In a copy loop, every `FICLONERANGE` request was made with the
output offset `fd_size` a multiple of the block size and with more than one
block remaining (first part). In a state with bytes remaining where that does
not hold (block size nonzero), the clone stage does nothing and the `sendfile`
stage makes its call (second part). -/
theorem clone_only_when_aligned (env : Env) (bs fd_out : Nat) :
    (∀ (fds : List Nat) (st : State) (rs : List Ret),
      ∀ e ∈ (copy_loop env bs fd_out fds { st with trace := [] } rs).state.trace,
      ∀ fo src off len dst, e.call = .ficlonerange fo src off len dst →
        bs ∣ e.fd_size ∧ bs < e.remain ∧ 0 < bs)
    ∧ (∀ (fd_in : Nat) (st : State) (rs : List Ret),
        0 < bs → 0 < st.remain → ¬ (bs ∣ st.fd_size ∧ bs < st.remain) →
        clone_stage bs fd_in fd_out st rs = .ret () st rs
        ∧ ∀ r rs2, ∃ more, (sendfile_stage fd_out fd_in st (r :: rs2)).state.trace
            = st.trace ++ ⟨.sendfile fd_out fd_in (request_count st.remain max_count_sendfile),
                r, st.fd_size, st.remain⟩ :: more) := by
  constructor
  · intro fds st rs e he fo src off len dst hc
    have h := copy_loop_shape env bs fd_out fds st rs e he
    simp only [Event.shape, Event.engine, hc] at h
    exact ⟨Nat.dvd_of_mod_eq_zero h.2.2.2.2.2.1, h.2.2.2.2.2.2, h.2.2.2.2.1⟩
  · intro fd_in st rs hbs hrem hnot
    constructor
    · unfold clone_stage
      split
      · rename_i h1
        simp only [Bool.and_eq_true, decide_eq_true_eq] at h1
        rw [if_neg (by omega)]
        split
        · rename_i h3
          exact absurd ⟨Nat.dvd_of_mod_eq_zero h3, h1.2⟩ hnot
        · rfl
      · rfl
    · intro r rs2
      unfold sendfile_stage
      rw [if_pos hrem]
      unfold sendfile_loop
      cases r <;> simp only []
      · split
        · rename_i h
          obtain ⟨new, h1, _⟩ := emits_sendfile_loop bs fd_out fd_in rs2 _ h.1
          exact ⟨new, by rw [h1]; simp [State.log, State.advance]⟩
        · exact ⟨[], by simp [Res.state, State.log, State.advance]⟩
      · split <;> exact ⟨[], by simp [Res.state, State.log]⟩

theorem clone_only_when_aligned_witness :
    (4096 ∣ 4096 ∧ 4096 < 8192 ∧ 0 < 4096)
    ∧ (clone_stage 4096 4 3 { State.init with fd_size := 0, remain := 4096 } []
        = .ret () { State.init with fd_size := 0, remain := 4096 } [])
    ∧ (clone_stage 4096 4 3 { State.init with fd_size := 4096, remain := 10 } []
        = .ret () { State.init with fd_size := 4096, remain := 10 } []) :=
  ⟨(clone_only_when_aligned env_5_15 4096 3).1 [4] State.init (abc_oracle.drop 6)
      ⟨.ficlonerange 3 4 0 8192 4096, .ok 0, 4096, 8192⟩ (by decide) 3 4 0 8192 4096 rfl,
   ((clone_only_when_aligned env_5_15 4096 3).2 4
      { State.init with fd_size := 0, remain := 4096 } [] (by decide) (by decide)
      (by decide)).1,
   ((clone_only_when_aligned env_5_15 4096 3).2 4
      { State.init with fd_size := 4096, remain := 10 } [] (by decide) (by decide)
      (by decide)).1⟩

/-! ## Theorems: every source is visited and closed once, in order -/

theorem visited_append (a b : List Event) : visited (a ++ b) = visited a ++ visited b := by
  simp [visited, List.filterMap_append]

theorem closed_append (a b : List Event) : closed (a ++ b) = closed a ++ closed b := by
  simp [closed, List.filterMap_append]

theorem engine_marks {bs fd_out : Nat} (new : List Event)
    (h : ∀ e ∈ new, e.engine bs fd_out) :
    visited new = [] ∧ closed new = [] ∧ ∀ e ∈ new, e.is_close = false := by
  induction new with
  | nil => simp [visited, closed]
  | cons e new ih =>
    have he := h e (List.mem_cons_self _ _)
    obtain ⟨h1, h2, h3⟩ := ih (fun x hx => h x (List.mem_cons_of_mem _ hx))
    have hv : visited (e :: new) = visited new := by
      unfold visited Event.engine at *
      rw [List.filterMap_cons]
      split at he <;> simp_all
    have hc : closed (e :: new) = closed new := by
      unfold closed Event.engine at *
      rw [List.filterMap_cons]
      split at he <;> simp_all
    have hk : e.is_close = false := by
      unfold Event.is_close Event.engine at *
      split at he <;> simp_all
    refine ⟨by rw [hv, h1], by rw [hc, h2], ?_⟩
    intro x hx
    rcases List.mem_cons.1 hx with rfl | hx
    · exact hk
    · exact h3 x hx

/-- What one pass of the loop body adds to the log. -/
theorem copy_one_marks (env : Env) (bs fd_out fd : Nat) (st : State) (rs : List Ret) :
    ∃ new, (copy_one env bs fd_out fd st rs).state.trace = st.trace ++ new
      ∧ (∀ a st2 rs2, copy_one env bs fd_out fd st rs = .ret a st2 rs2 →
          visited new = [fd] ∧ closed new = [fd] ∧ ∀ e ∈ new, e.is_close = true → e.remain = 0)
      ∧ (∀ o st2, copy_one env bs fd_out fd st rs = .halt o st2 →
          (visited new = [] ∨ visited new = [fd])
          ∧ ((closed new = [] ∧ ∀ e ∈ new, e.is_close = false)
            ∨ (visited new = [fd] ∧ closed new = [fd] ∧ o = .exit EXIT_FAILURE))) := by
  unfold copy_one
  cases rs with
  | nil =>
    refine ⟨[], by simp [sys, Res.bind, Res.state], ?_, ?_⟩
    · simp [sys, Res.bind]
    · simp [sys, Res.bind, visited, closed]
  | cons r rs =>
    cases r with
    | err e =>
      refine ⟨[⟨.fstat fd, .err e, st.fd_size, st.remain⟩],
        by simp [sys, Res.bind, Res.state, State.log], ?_, ?_⟩
      · simp [sys, Res.bind]
      · simp [sys, Res.bind, visited, closed, Event.is_close]
    | ok v =>
      simp only [sys, Res.bind]
      obtain ⟨mid, hmid, heng⟩ := emits_transfer env bs fd_out fd
        { (st.log (.fstat fd) (.ok v)) with remain := v % SIZE_T } rs
      obtain ⟨hv, hc, hk⟩ := engine_marks mid heng
      cases hT : transfer env bs fd_out fd
          { (st.log (.fstat fd) (.ok v)) with remain := v % SIZE_T } rs with
      | halt o st2 =>
        rw [hT] at hmid
        refine ⟨⟨.fstat fd, .ok v, st.fd_size, st.remain⟩ :: mid,
          by simpa [Res.state, State.log] using hmid, ?_, ?_⟩
        · simp
        · intro o2 st3 _
          have hv2 : visited (⟨.fstat fd, .ok v, st.fd_size, st.remain⟩ :: mid) = [fd] := by
            rw [← List.singleton_append, visited_append, hv]; simp [visited]
          have hc2 : closed (⟨.fstat fd, .ok v, st.fd_size, st.remain⟩ :: mid) = [] := by
            rw [← List.singleton_append, closed_append, hc]; simp [closed]
          refine ⟨Or.inr hv2, Or.inl ⟨hc2, ?_⟩⟩
          intro x hx
          rcases List.mem_cons.1 hx with rfl | hx
          · rfl
          · exact hk x hx
      | ret a st2 rs2 =>
        rw [hT] at hmid
        simp only [Res.state, State.log] at hmid
        have hv2 : visited (⟨.fstat fd, .ok v, st.fd_size, st.remain⟩ :: mid) = [fd] := by
          rw [← List.singleton_append, visited_append, hv]; simp [visited]
        have hc2 : closed (⟨.fstat fd, .ok v, st.fd_size, st.remain⟩ :: mid) = [] := by
          rw [← List.singleton_append, closed_append, hc]; simp [closed]
        have hk2 : ∀ x ∈ (⟨.fstat fd, .ok v, st.fd_size, st.remain⟩ :: mid : List Event),
            x.is_close = false := by
          intro x hx
          rcases List.mem_cons.1 hx with rfl | hx
          · rfl
          · exact hk x hx
        unfold close_source
        cases rs2 with
        | nil =>
          refine ⟨⟨.fstat fd, .ok v, st.fd_size, st.remain⟩ :: mid,
            by simpa [sys, Res.bind, Res.state] using hmid, ?_, ?_⟩
          · simp [sys, Res.bind]
          · intro o2 st3 _
            exact ⟨Or.inr hv2, Or.inl ⟨hc2, hk2⟩⟩
        | cons x rs3 =>
          have hv3 : visited ((⟨.fstat fd, .ok v, st.fd_size, st.remain⟩ :: mid)
              ++ [⟨.close fd, x, st2.fd_size, st2.remain⟩]) = [fd] := by
            rw [visited_append, hv2]; simp [visited]
          have hc3 : closed ((⟨.fstat fd, .ok v, st.fd_size, st.remain⟩ :: mid)
              ++ [⟨.close fd, x, st2.fd_size, st2.remain⟩]) = [fd] := by
            rw [closed_append, hc2]; simp [closed]
          refine ⟨(⟨.fstat fd, .ok v, st.fd_size, st.remain⟩ :: mid)
              ++ [⟨.close fd, x, st2.fd_size, st2.remain⟩], ?_, ?_, ?_⟩
          · simp only [sys, Res.bind, State.log]
            split <;> simp [Res.state, hmid]
          · intro a2 st3 rs4 h
            simp only [sys, Res.bind, State.log] at h
            split at h
            · simp at h
            · rename_i hz
              refine ⟨hv3, hc3, ?_⟩
              intro y hy hyc
              rcases List.mem_append.1 hy with hy | hy
              · rw [hk2 y hy] at hyc; simp at hyc
              · simp only [List.mem_singleton] at hy
                subst hy
                simpa using hz
          · intro o2 st3 h
            simp only [sys, Res.bind, State.log] at h
            split at h
            · simp only [Res.halt.injEq] at h
              exact ⟨Or.inr hv3, Or.inr ⟨hv3, hc3, h.1.symm⟩⟩
            · simp at h

/-- What the copy loop adds to the log. -/
theorem copy_loop_marks (env : Env) (bs fd_out : Nat) (fds : List Nat) (h0 : 0 ∉ fds) :
    ∀ (st : State) (rs : List Ret),
    ∃ new, (copy_loop env bs fd_out fds st rs).state.trace = st.trace ++ new
      ∧ visited new <+: fds
      ∧ closed new <+: visited new
      ∧ (∀ a st2 rs2, copy_loop env bs fd_out fds st rs = .ret a st2 rs2 →
          visited new = fds ∧ closed new = fds ∧ ∀ e ∈ new, e.is_close = true → e.remain = 0)
      ∧ (∀ e ∈ new, e.is_close = true → e.remain ≠ 0 →
          ∃ st2, copy_loop env bs fd_out fds st rs = .halt (.exit EXIT_FAILURE) st2) := by
  induction fds with
  | nil =>
    intro st rs
    refine ⟨[], by simp [copy_loop, Res.state], ?_, ?_, ?_, ?_⟩ <;> simp [visited, closed]
  | cons fd fds ih =>
    intro st rs
    have hfd : fd ≠ 0 := fun h => h0 (by simp [h])
    have h0b : 0 ∉ fds := fun h => h0 (List.mem_cons_of_mem _ h)
    unfold copy_loop
    rw [if_neg hfd]
    obtain ⟨new1, ht1, hret1, hhalt1⟩ := copy_one_marks env bs fd_out fd st rs
    cases h1 : copy_one env bs fd_out fd st rs with
    | halt o st2 =>
      rw [h1] at ht1
      obtain ⟨hv, hc⟩ := hhalt1 o st2 h1
      refine ⟨new1, by simpa [Res.bind] using ht1, ?_, ?_, ?_, ?_⟩
      · rcases hv with hv | hv <;> rw [hv]
        · exact List.nil_prefix
        · exact (List.prefix_cons_inj fd).2 List.nil_prefix
      · rcases hc with ⟨hc, _⟩ | ⟨hv2, hc, _⟩
        · rw [hc]; exact List.nil_prefix
        · rw [hv2, hc]
      · simp [Res.bind]
      · intro e he hec _
        rcases hc with ⟨_, hk⟩ | ⟨_, _, ho⟩
        · rw [hk e he] at hec; simp at hec
        · exact ⟨st2, by simp [Res.bind, ho]⟩
    | ret a st2 rs2 =>
      rw [h1] at ht1
      simp only [Res.state] at ht1
      obtain ⟨hv, hc, hk⟩ := hret1 a st2 rs2 h1
      obtain ⟨new2, ht2, hp2, hq2, hret2, hbad2⟩ := ih h0b st2 rs2
      simp only [Res.bind]
      refine ⟨new1 ++ new2, by rw [ht2, ht1, List.append_assoc], ?_, ?_, ?_, ?_⟩
      · rw [visited_append, hv]
        exact (List.prefix_cons_inj fd).2 hp2
      · rw [visited_append, closed_append, hv, hc]
        exact (List.prefix_cons_inj fd).2 hq2
      · intro a3 st3 rs3 h3
        obtain ⟨hv3, hc3, hk3⟩ := hret2 a3 st3 rs3 h3
        refine ⟨by rw [visited_append, hv, hv3]; rfl, by rw [closed_append, hc, hc3]; rfl, ?_⟩
        intro e he hec
        rcases List.mem_append.1 he with he | he
        · exact hk e he hec
        · exact hk3 e he hec
      · intro e he hec hne
        rcases List.mem_append.1 he with he | he
        · exact absurd (hk e he hec) hne
        · exact hbad2 e he hec hne

/-- The copy loop started with an empty log, on descriptors none of which is
`0`. -/
theorem copy_loop_from_empty (env : Env) (bs fd_out : Nat) (fds : List Nat) (st : State)
    (rs : List Ret) (h0 : 0 ∉ fds) :
    visited (copy_loop env bs fd_out fds { st with trace := [] } rs).state.trace <+: fds
    ∧ closed (copy_loop env bs fd_out fds { st with trace := [] } rs).state.trace
        <+: visited (copy_loop env bs fd_out fds { st with trace := [] } rs).state.trace
    ∧ (∀ a st2 rs2, copy_loop env bs fd_out fds { st with trace := [] } rs = .ret a st2 rs2 →
        visited st2.trace = fds ∧ closed st2.trace = fds
        ∧ ∀ e ∈ st2.trace, e.is_close = true → e.remain = 0)
    ∧ (∀ e ∈ (copy_loop env bs fd_out fds { st with trace := [] } rs).state.trace,
        e.is_close = true → e.remain ≠ 0 →
        ∃ st2, copy_loop env bs fd_out fds { st with trace := [] } rs
          = .halt (.exit EXIT_FAILURE) st2) := by
  obtain ⟨new, ht, hp, hq, hret, hbad⟩ :=
    copy_loop_marks env bs fd_out fds h0 { st with trace := [] } rs
  simp only [List.nil_append] at ht
  rw [ht]
  refine ⟨hp, hq, ?_, hbad⟩
  intro a st2 rs2 h
  have : st2.trace = new := by rw [← ht, h]; rfl
  rw [this]
  exact hret a st2 rs2 h

/-! ## Theorems: the sources of a successful run -/

theorem opened_append (a b : List Event) : opened (a ++ b) = opened a ++ opened b := by
  simp [opened, List.filterMap_append]

theorem setup_marks (new : List Event) (h : ∀ e ∈ new, e.setup) :
    visited new = [] ∧ closed new = [] ∧ opened new = []
      ∧ ∀ e ∈ new, e.is_close = false := by
  induction new with
  | nil => simp [visited, closed, opened]
  | cons e new ih =>
    have he := h e (List.mem_cons_self _ _)
    obtain ⟨h1, h2, h3, h4⟩ := ih (fun x hx => h x (List.mem_cons_of_mem _ hx))
    have hv : visited (e :: new) = visited new := by
      unfold visited Event.setup at *
      rw [List.filterMap_cons]
      split at he <;> simp_all
    have hc : closed (e :: new) = closed new := by
      unfold closed Event.setup at *
      rw [List.filterMap_cons]
      split at he <;> simp_all
    have ho : opened (e :: new) = opened new := by
      unfold opened Event.setup at *
      rw [List.filterMap_cons]
      split at he <;> simp_all
    have hk : e.is_close = false := by
      unfold Event.is_close Event.setup at *
      split at he <;> simp_all
    refine ⟨by rw [hv, h1], by rw [hc, h2], by rw [ho, h3], ?_⟩
    intro x hx
    rcases List.mem_cons.1 hx with rfl | hx
    · exact hk
    · exact h4 x hx

theorem shape_not_open {bs fd_out : Nat} (e : Event) (h : e.shape bs fd_out) :
    (match e.call, e.ret with
      | .open_input _, .ok fd => some fd
      | _, _ => none) = none := by
  rcases e with ⟨c, r, a, b⟩
  cases c <;> first | rfl | (simp [Event.shape, Event.engine] at h)

theorem shape_opened {bs fd_out : Nat} (new : List Event) (h : ∀ e ∈ new, e.shape bs fd_out) :
    opened new = [] := by
  induction new with
  | nil => simp [opened]
  | cons e new ih =>
    have he := h e (List.mem_cons_self _ _)
    have h3 := ih (fun x hx => h x (List.mem_cons_of_mem _ hx))
    have ho : opened (e :: new) = opened new := by
      unfold opened
      rw [List.filterMap_cons, shape_not_open e he]
    rw [ho, h3]

theorem emits_init_features (env : Env) (st : State) (rs : List Ret) :
    (init_features env st rs).emits Event.setup st := by
  unfold init_features
  refine emits_bind (emits_sys _ _ _ (fun x => by simp [Event.setup])) (fun r st2 rs2 => ?_)
  cases r <;> simp only []
  · split <;> exact emits_of_trace_eq rfl
  · exact emits_of_trace_eq rfl

theorem emits_open_output (st : State) (rs : List Ret) :
    (open_output st rs).emits Event.setup st := by
  unfold open_output directory_from_filename
  repeat' first
    | exact emits_of_trace_eq rfl
    | exact emits_sys _ _ _ (fun x => by simp [Event.setup])
    | apply emits_bind
    | intro _
    | split

theorem emits_publish (fd_out : Nat) (st : State) (rs : List Ret) :
    (publish fd_out st rs).emits Event.setup st := by
  unfold publish link_or_replace
  repeat' first
    | exact emits_of_trace_eq rfl
    | exact emits_sys _ _ _ (fun x => by simp [Event.setup])
    | apply emits_bind
    | intro _
    | split

/-- What `open_inputs` adds to the log: no `fstat`, no `close`, and when it
returns, the descriptors it returns are the results of its `k` calls. -/
theorem open_inputs_marks (k : Nat) :
    ∀ (i : Nat) (st : State) (rs : List Ret),
    ∃ new, (open_inputs k i st rs).state.trace = st.trace ++ new
      ∧ visited new = [] ∧ closed new = [] ∧ (∀ e ∈ new, e.is_close = false)
      ∧ ∀ fds st2 rs2, open_inputs k i st rs = .ret fds st2 rs2 →
          opened new = fds ∧ fds.length = k := by
  induction k with
  | zero =>
    intro i st rs
    refine ⟨[], by simp [open_inputs, Res.state], by simp [visited], by simp [closed],
      by simp, ?_⟩
    intro fds st2 rs2 h
    simp only [open_inputs, Res.ret.injEq] at h
    simp [opened, ← h.1]
  | succ k ih =>
    intro i st rs
    unfold open_inputs
    cases rs with
    | nil =>
      refine ⟨[], by simp [sys, Res.bind, Res.state], by simp [visited], by simp [closed],
        by simp, ?_⟩
      simp [sys, Res.bind]
    | cons r rs =>
      cases r with
      | err x =>
        refine ⟨[⟨.open_input i, .err x, st.fd_size, st.remain⟩],
          by simp [sys, Res.bind, Res.state, State.log], by simp [visited], by simp [closed],
          by simp [Event.is_close], ?_⟩
        simp [sys, Res.bind]
      | ok f =>
        obtain ⟨new, ht, hv, hc, hk, hret⟩ := ih (i + 1) (st.log (.open_input i) (.ok f)) rs
        simp only [sys, Res.bind]
        cases hoi : open_inputs k (i + 1) (st.log (.open_input i) (.ok f)) rs with
        | halt o st2 =>
          rw [hoi] at ht
          refine ⟨⟨.open_input i, .ok f, st.fd_size, st.remain⟩ :: new,
            by simpa [Res.state, State.log] using ht, ?_, ?_, ?_, ?_⟩
          · rw [← List.singleton_append, visited_append, hv]; simp [visited]
          · rw [← List.singleton_append, closed_append, hc]; simp [closed]
          · intro e he
            rcases List.mem_cons.1 he with rfl | he
            · rfl
            · exact hk e he
          · simp
        | ret fds st2 rs2 =>
          rw [hoi] at ht
          obtain ⟨ho, hl⟩ := hret fds st2 rs2 hoi
          refine ⟨⟨.open_input i, .ok f, st.fd_size, st.remain⟩ :: new,
            by simpa [Res.state, State.log] using ht, ?_, ?_, ?_, ?_⟩
          · rw [← List.singleton_append, visited_append, hv]; simp [visited]
          · rw [← List.singleton_append, closed_append, hc]; simp [closed]
          · intro e he
            rcases List.mem_cons.1 he with rfl | he
            · rfl
            · exact hk e he
          · intro fds2 st3 rs3 h
            simp only [Res.ret.injEq] at h
            rw [← h.1, ← List.singleton_append, opened_append, ho]
            simp [opened, hl]

theorem halts_bind {α β : Type} {m : Res α} {f : α → State → List Ret → Res β}
    (hf : ∀ a st rs, (f a st rs).halts) : (m.bind f).halts := by
  cases m with
  | ret a st rs => exact hf a st rs
  | halt o st => trivial

/-- The text of `main` after the argument check ends in an `exit`. -/
theorem halts_main_body (env : Env) (argc : Nat) (st : State) (rs : List Ret) :
    (main_body env argc st rs).halts := by
  unfold main_body
  repeat' first
    | exact trivial
    | apply halts_bind
    | intro _
    | split

theorem not_abnormal_success : ¬ Outcome.abnormal (.exit EXIT_SUCCESS) := by
  intro h
  rcases h with h | h | ⟨c, h⟩ <;> simp [EXIT_SUCCESS, EXIT_FAILURE] at h

/-- A sequence that ends with the success code got past its first part. -/
theorem bind_eq_success {α β : Type} {m : Res α} {f : α → State → List Ret → Res β}
    {st2 : State} (hm : m.ends Outcome.abnormal)
    (h : m.bind f = .halt (.exit EXIT_SUCCESS) st2) :
    ∃ a st1 rs1, m = .ret a st1 rs1 ∧ f a st1 rs1 = .halt (.exit EXIT_SUCCESS) st2 := by
  cases m with
  | ret a st1 rs1 => exact ⟨a, st1, rs1, rfl, h⟩
  | halt o st1 =>
    simp only [Res.bind, Res.halt.injEq] at h
    rw [h.1] at hm
    exact absurd hm not_abnormal_success

theorem sys_ret {c : Call} {st st2 : State} {rs rs2 : List Ret} {r : Ret}
    (h : sys c st rs = .ret r st2 rs2) : st2 = st.log c r := by
  cases rs with
  | nil => simp [sys] at h
  | cons x rs =>
    simp only [sys, Res.ret.injEq] at h
    rw [← h.2.1, h.1]

theorem ret_trace {α : Type} {m : Res α} {a : α} {st2 : State} {rs2 : List Ret}
    (h : m = .ret a st2 rs2) : m.state.trace = st2.trace := by
  rw [h]; rfl

/-- A run of `main` that ends with the success code, and in which no source
was opened as descriptor `0`, has opened `argc - 2` sources, has called `fstat`
on exactly those descriptors in the order in which they were opened, and
before its last call, the `close` of the output, has closed exactly those
descriptors in that order, each of them with `remain = 0`. -/
theorem main_success_sources (env : Env) (argc : Nat) (oracle : List Ret)
    (h : (main env argc oracle).outcome = .exit EXIT_SUCCESS)
    (h0 : 0 ∉ opened (main env argc oracle).state.trace) :
    (opened (main env argc oracle).state.trace).length = argc - 2
    ∧ visited (main env argc oracle).state.trace = opened (main env argc oracle).state.trace
    ∧ closed (main env argc oracle).state.trace.dropLast
        = opened (main env argc oracle).state.trace
    ∧ (∃ fd_out, closed (main env argc oracle).state.trace
        = opened (main env argc oracle).state.trace ++ [fd_out])
    ∧ ∀ e ∈ (main env argc oracle).state.trace.dropLast, e.is_close = true → e.remain = 0 := by
  unfold main at h h0 ⊢
  by_cases hlt : argc < 3
  · simp [hlt, EXIT_INVALIDARGUMENT, EXIT_SUCCESS] at h
  simp only [hlt, if_false] at h h0 ⊢
  have hh := halts_main_body env argc State.init oracle
  cases hmb : main_body env argc State.init oracle with
  | ret a st rs => rw [hmb] at hh; exact absurd hh (by simp [Res.halts])
  | halt o st9 =>
    rw [hmb] at h h0
    simp only [Res.run] at h h0 ⊢
    subst h
    unfold main_body at hmb
    obtain ⟨a1, st1, rs1, e1, hmb⟩ := bind_eq_success (ends_init_features _ _ _) hmb
    obtain ⟨out, st2, rs2, e2, hmb⟩ := bind_eq_success (ends_open_output _ _) hmb
    obtain ⟨fds, st3, rs3, e3, hmb⟩ := bind_eq_success (ends_open_inputs _ _ _ _) hmb
    obtain ⟨r4, st4, rs4, e4, hmb⟩ := bind_eq_success (ends_sys _ _ _) hmb
    cases r4 with
    | err x => simp [EXIT_SUCCESS, EXIT_FAILURE] at hmb
    | ok f_bsize =>
      simp only [] at hmb
      obtain ⟨a5, st5, rs5, e5, hmb⟩ := bind_eq_success (ends_copy_loop _ _ _ _ _ _) hmb
      obtain ⟨a6, st6, rs6, e6, hmb⟩ := bind_eq_success
        (by split
            · exact ends_publish _ _ _
            · exact ends_ret _ _ _) hmb
      obtain ⟨r7, st7, rs7, e7, hmb⟩ := bind_eq_success (ends_sys _ _ _) hmb
      simp only [Res.halt.injEq, true_and] at hmb
      subst hmb
      -- the log, phase by phase
      obtain ⟨n1, t1, p1⟩ := emits_init_features env State.init oracle
      rw [ret_trace e1] at t1
      obtain ⟨n2, t2, p2⟩ := emits_open_output st1 rs1
      rw [ret_trace e2] at t2
      obtain ⟨n3, t3, v3, c3, k3, o3⟩ := open_inputs_marks (argc - 2) 1 st2 rs2
      rw [ret_trace e3] at t3
      obtain ⟨o3, l3⟩ := o3 fds st3 rs3 e3
      have t4 : st4.trace = st3.trace ++ [⟨.fstatfs out.1, .ok f_bsize, st3.fd_size, st3.remain⟩] := by
        rw [sys_ret e4]; rfl
      obtain ⟨n5, t5, p5⟩ := emits_copy_loop env (f_bsize % SIZE_T) out.1 fds st4 rs4
      rw [ret_trace e5] at t5
      have t6 : ∃ n6, st6.trace = st5.trace ++ n6 ∧ ∀ e ∈ n6, e.setup := by
        split at e6
        · obtain ⟨n6, t6, p6⟩ := emits_publish out.1 st5 rs5
          rw [ret_trace e6] at t6
          exact ⟨n6, t6, p6⟩
        · simp only [Res.ret.injEq] at e6
          exact ⟨[], by simp [e6.2.1], by simp⟩
      obtain ⟨n6, t6, p6⟩ := t6
      have t7 : st7.trace = st6.trace ++ [⟨.close out.1, r7, st6.fd_size, st6.remain⟩] := by
        rw [sys_ret e7]; rfl
      obtain ⟨v1, c1, o1, k1⟩ := setup_marks n1 p1
      obtain ⟨v2, c2, o2, k2⟩ := setup_marks n2 p2
      obtain ⟨v6, c6, o6, k6⟩ := setup_marks n6 p6
      have o5 := shape_opened n5 p5
      have hinit : State.init.trace = [] := rfl
      have htr : st7.trace = (n1 ++ n2 ++ n3
          ++ [⟨.fstatfs out.1, .ok f_bsize, st3.fd_size, st3.remain⟩] ++ n5 ++ n6)
          ++ [⟨.close out.1, r7, st6.fd_size, st6.remain⟩] := by
        rw [t7, t6, t5, t4, t3, t2, t1, hinit]; simp
      have hop : opened st7.trace = fds := by
        rw [htr]
        simp only [opened_append, o1, o2, o3, o5, o6]
        simp [opened]
      rw [hop] at h0 ⊢
      obtain ⟨m5, u5, _, _, r5, _⟩ := copy_loop_marks env (f_bsize % SIZE_T) out.1 fds h0 st4 rs4
      rw [ret_trace e5] at u5
      have hm5 : m5 = n5 := List.append_cancel_left (u5.symm.trans t5)
      subst hm5
      obtain ⟨v5, c5, k5⟩ := r5 a5 st5 rs5 e5
      refine ⟨l3, ?_, ?_, ⟨out.1, ?_⟩, ?_⟩
      · rw [htr]
        simp only [visited_append, v1, v2, v3, v5, v6]
        simp [visited]
      · rw [htr, List.dropLast_concat]
        simp only [closed_append, c1, c2, c3, c5, c6]
        simp [closed]
      · rw [htr]
        simp only [closed_append, c1, c2, c3, c5, c6]
        simp [closed]
      · rw [htr, List.dropLast_concat]
        intro e he hc
        simp only [List.mem_append, List.mem_singleton] at he
        rcases he with ((((he | he) | he) | he) | he) | he
        · rw [k1 e he] at hc; simp at hc
        · rw [k2 e he] at hc; simp at hc
        · rw [k3 e he] at hc; simp at hc
        · rw [he] at hc; simp [Event.is_close] at hc
        · exact k5 e he hc
        · rw [k6 e he] at hc; simp at hc

/-- What the copy loop guarantees about visits, closes and the counter
`remain`; it says nothing about which bytes were moved (see
`success_with_source_partly_skipped`). First part, the copy loop on any
descriptors `fds` (none of them
`0`, the end mark of the array; a source is never opened as descriptor `0`
because `fd_out` was opened before), whatever the calls answer and wherever
the run stops: the sources visited so far (`fstat`) are an initial part of
`fds` in its order, the sources closed so far an initial part of those
visited; when the loop is left towards the success exit, the sources visited
and the sources closed are exactly `fds` and each was closed with
`remain = 0`; a source closed with `remain ≠ 0` ends the run with the failure
code. Second part, the whole of `main`: a run that ends with the success code
has opened `argc - 2` sources, has visited exactly these in the order of
opening, and before the final `close` of the output has closed exactly these,
in that order, each with `remain = 0`. -/
theorem sources_visited_once (env : Env) :
    (∀ (bs fd_out : Nat) (fds : List Nat) (st : State) (rs : List Ret), 0 ∉ fds →
      visited (copy_loop env bs fd_out fds { st with trace := [] } rs).state.trace <+: fds
      ∧ closed (copy_loop env bs fd_out fds { st with trace := [] } rs).state.trace
          <+: visited (copy_loop env bs fd_out fds { st with trace := [] } rs).state.trace
      ∧ (∀ a st2 rs2, copy_loop env bs fd_out fds { st with trace := [] } rs = .ret a st2 rs2 →
          visited st2.trace = fds ∧ closed st2.trace = fds
          ∧ ∀ e ∈ st2.trace, e.is_close = true → e.remain = 0)
      ∧ (∀ e ∈ (copy_loop env bs fd_out fds { st with trace := [] } rs).state.trace,
          e.is_close = true → e.remain ≠ 0 →
          ∃ st2, copy_loop env bs fd_out fds { st with trace := [] } rs
            = .halt (.exit EXIT_FAILURE) st2))
    ∧ (∀ (argc : Nat) (oracle : List Ret),
        (main env argc oracle).outcome = .exit EXIT_SUCCESS →
        0 ∉ opened (main env argc oracle).state.trace →
        (opened (main env argc oracle).state.trace).length = argc - 2
        ∧ visited (main env argc oracle).state.trace
            = opened (main env argc oracle).state.trace
        ∧ closed (main env argc oracle).state.trace.dropLast
            = opened (main env argc oracle).state.trace
        ∧ (∃ fd_out, closed (main env argc oracle).state.trace
            = opened (main env argc oracle).state.trace ++ [fd_out])
        ∧ ∀ e ∈ (main env argc oracle).state.trace.dropLast,
            e.is_close = true → e.remain = 0) :=
  ⟨fun bs fd_out fds st rs h0 => copy_loop_from_empty env bs fd_out fds st rs h0,
   fun argc oracle h h0 => main_success_sources env argc oracle h h0⟩

theorem sources_visited_once_witness :
    (0 ∉ [4]
      ∧ visited (copy_loop env_5_15 4096 3 [4] State.init (abc_oracle.drop 6)).state.trace
          = [4]
      ∧ closed (copy_loop env_5_15 4096 3 [4] State.init (abc_oracle.drop 6)).state.trace
          = [4])
    ∧ ((main env_5_15 3 abc_oracle).outcome = .exit EXIT_SUCCESS
      ∧ 0 ∉ opened (main env_5_15 3 abc_oracle).state.trace
      ∧ visited (main env_5_15 3 abc_oracle).state.trace
          = opened (main env_5_15 3 abc_oracle).state.trace) :=
  ⟨⟨by decide,
    (((sources_visited_once env_5_15).1 4096 3 [4] State.init (abc_oracle.drop 6)
        (by decide)).2.2.1 ()
      (copy_loop env_5_15 4096 3 [4] State.init (abc_oracle.drop 6)).state [.ok 0, .ok 0]
      rfl).1,
    (((sources_visited_once env_5_15).1 4096 3 [4] State.init (abc_oracle.drop 6)
        (by decide)).2.2.1 ()
      (copy_loop env_5_15 4096 3 [4] State.init (abc_oracle.drop 6)).state [.ok 0, .ok 0]
      rfl).2.1⟩,
   ⟨by decide, by decide,
    ((sources_visited_once env_5_15).2 3 abc_oracle (by decide) (by decide)).2.1⟩⟩

/-! ## Theorems: accounting of `fd_size` and `remain` -/

theorem sat_bind {α β : Type} {R R2 H : State → Prop} {m : Res α}
    {f : α → State → List Ret → Res β}
    (hm : m.sat R H) (hf : ∀ a st rs, R st → (f a st rs).sat R2 H) : (m.bind f).sat R2 H := by
  cases m with
  | ret a st rs => exact hf a st rs hm
  | halt o st => exact hm

theorem moved_snoc (tr : List Event) (e : Event) : moved (tr ++ [e]) = moved tr + e.moved := by
  simp [moved]

theorem sizes_snoc (tr : List Event) (e : Event) : sizes (tr ++ [e]) = sizes tr + e.size := by
  simp [sizes]

theorem size_sub_le {a n : Nat} (ha : a < SIZE_T) (hn : n ≤ a) : size_sub a n = a - n := by
  unfold size_sub SIZE_T at *
  have : n % 2 ^ 64 = n := Nat.mod_eq_of_lt (by omega)
  rw [this]
  omega

theorem size_sub_lt (a n : Nat) : size_sub a n < SIZE_T := by
  unfold size_sub
  exact Nat.mod_lt _ (by decide)

/-- Logging a call that moved nothing and reports no size keeps the
invariant. -/
theorem conserved_log (st : State) (c : Call) (r : Ret) (h : Conserved st)
    (hm : Event.moved ⟨c, r, st.fd_size, st.remain⟩ = 0)
    (hs : Event.size ⟨c, r, st.fd_size, st.remain⟩ = 0) : Conserved (st.log c r) := by
  refine ⟨⟨h.1.1, ?_, ?_⟩, ?_⟩
  · intro e he
    simp only [State.log, List.mem_append, List.mem_singleton] at he
    rcases he with he | rfl
    · exact h.1.2.1 e he
    · exact h.1.1
  · simp only [State.log]
    rw [moved_snoc, hm]
    simpa using h.1.2.2
  intro hh
  simp only [State.log, List.mem_append, List.mem_singleton] at hh ⊢
  obtain ⟨h1, h3⟩ := h.2 (fun e he => hh e (Or.inl he))
  refine ⟨by rw [moved_snoc, sizes_snoc, hm, hs]; omega, ?_⟩
  intro e he
  rcases he with he | rfl
  · exact h3 e he
  · rw [hm]; exact Nat.zero_le _

/-- Logging a transfer of `n` bytes and advancing by `n` keeps the
invariant. -/
theorem conserved_advance (st : State) (c : Call) (r : Ret) (n : Nat) (h : Conserved st)
    (hm : Event.moved ⟨c, r, st.fd_size, st.remain⟩ = n)
    (hs : Event.size ⟨c, r, st.fd_size, st.remain⟩ = 0)
    (hn : Event.honest ⟨c, r, st.fd_size, st.remain⟩ → st.fd_size < SIZE_T → n ≤ st.remain) :
    Conserved ((st.log c r).advance n) := by
  have hfd : st.fd_size < SIZE_T := by rw [h.1.2.2]; exact Nat.mod_lt _ (by decide)
  refine ⟨⟨size_sub_lt _ _, ?_, ?_⟩, ?_⟩
  · intro e he
    simp only [State.log, State.advance, List.mem_append, List.mem_singleton] at he
    rcases he with he | rfl
    · exact h.1.2.1 e he
    · exact h.1.1
  · simp only [State.log, State.advance]
    rw [moved_snoc, hm, h.1.2.2]
    unfold size_add
    simp [Nat.add_mod]
  intro hh
  simp only [State.log, State.advance, List.mem_append, List.mem_singleton] at hh ⊢
  obtain ⟨h1, h3⟩ := h.2 (fun e he => hh e (Or.inl he))
  have hle := hn (hh _ (Or.inr rfl)) hfd
  rw [size_sub_le h.1.1 hle, moved_snoc, sizes_snoc, hm, hs]
  refine ⟨by omega, ?_⟩
  intro e he
  rcases he with he | rfl
  · exact h3 e he
  · rw [hm]; exact hle

theorem request_count_le (a b : Nat) : request_count a b ≤ a := by
  unfold request_count; split <;> omega

theorem request_count_eq_min (a b : Nat) : request_count a b = min a b := by
  unfold request_count; split <;> omega

theorem conserved_copy_file_range_loop (fd_in fd_out : Nat) (rs : List Ret) :
    ∀ st : State, Conserved st →
      (copy_file_range_loop fd_in fd_out rs st).sat Conserved Conserved := by
  induction rs with
  | nil => intro st h; exact h
  | cons r rs ih =>
    intro st h
    unfold copy_file_range_loop
    cases r with
    | ok n =>
      have hc : Conserved ((st.log (.copy_file_range fd_in fd_out
          (request_count st.remain max_count_cfr)) (.ok n)).advance n) :=
        conserved_advance st _ _ n h rfl rfl
          (fun hh _ => Nat.le_trans hh (request_count_le _ _))
      simp only []
      split
      · exact ih _ hc
      · exact hc
    | err e =>
      have hc : Conserved (st.log (.copy_file_range fd_in fd_out
          (request_count st.remain max_count_cfr)) (.err e)) :=
        conserved_log st _ _ h rfl rfl
      simp only []
      split
      · exact hc
      · split
        · exact hc
        · exact hc

theorem conserved_sendfile_loop (fd_out fd_in : Nat) (rs : List Ret) :
    ∀ st : State, Conserved st →
      (sendfile_loop fd_out fd_in rs st).sat Conserved Conserved := by
  induction rs with
  | nil => intro st h; exact h
  | cons r rs ih =>
    intro st h
    unfold sendfile_loop
    cases r with
    | ok n =>
      have hc : Conserved ((st.log (.sendfile fd_out fd_in
          (request_count st.remain max_count_sendfile)) (.ok n)).advance n) :=
        conserved_advance st _ _ n h rfl rfl
          (fun hh _ => Nat.le_trans hh (request_count_le _ _))
      simp only []
      split
      · exact ih _ hc
      · exact hc
    | err e =>
      have hc : Conserved (st.log (.sendfile fd_out fd_in
          (request_count st.remain max_count_sendfile)) (.err e)) :=
        conserved_log st _ _ h rfl rfl
      simp only []
      split <;> exact hc

theorem size_sub_of_le {a b : Nat} (hb : b < SIZE_T) (hab : b ≤ a) (hd : a - b < SIZE_T) :
    size_sub a b = a - b := by
  unfold size_sub SIZE_T at *
  have : b % 2 ^ 64 = b := Nat.mod_eq_of_lt hb
  rw [this]
  omega

theorem conserved_ioctl_loop (c : Call) (hc : ∀ r fs rem, Event.moved ⟨c, r, fs, rem⟩ = 0)
    (hs : ∀ r fs rem, Event.size ⟨c, r, fs, rem⟩ = 0) (rs : List Ret) :
    ∀ st : State, Conserved st → (ioctl_loop c rs st).sat Conserved Conserved := by
  induction rs with
  | nil => intro st h; exact h
  | cons r rs ih =>
    intro st h
    unfold ioctl_loop
    have h2 : Conserved (st.log c r) := conserved_log st c r h (hc _ _ _) (hs _ _ _)
    split
    · exact ih _ h2
    · exact h2

theorem conserved_clone_stage (bs fd_in fd_out : Nat) (st : State) (rs : List Ret)
    (h : Conserved st) : (clone_stage bs fd_in fd_out st rs).sat Conserved Conserved := by
  unfold clone_stage
  split
  · split
    · exact h
    · split
      · refine sat_bind (conserved_ioctl_loop (.ficlonerange fd_out fd_in 0 st.remain st.fd_size)
          (fun _ _ _ => rfl) (fun _ _ _ => rfl) rs st h) (fun n st2 rs2 h2 => ?_)
        cases n with
        | err e =>
          simp only []
          split
          · exact h2
          · exact h2
        | ok v =>
          simp only []
          cases rs2 with
          | nil => exact h2
          | cons r rs3 =>
            cases r with
            | err e => exact conserved_log st2 _ _ h2 rfl rfl
            | ok eof =>
              refine conserved_advance st2 (.lseek_end fd_out) (.ok eof) _ h2 rfl rfl ?_
              intro hh hfd
              have hh2 : st2.fd_size ≤ eof ∧ eof ≤ st2.fd_size + st2.remain := hh
              show size_sub eof st2.fd_size ≤ st2.remain
              rw [size_sub_of_le hfd hh2.1 (by have := h2.1.1; omega)]
              omega
      · exact h
  · exact h

theorem conserved_transfer (env : Env) (bs fd_out fd_in : Nat) (st : State) (rs : List Ret)
    (h : Conserved st) : (transfer env bs fd_out fd_in st rs).sat Conserved Conserved := by
  unfold transfer
  refine sat_bind (R := Conserved) ?_ (fun _ st2 rs2 h2 => ?_)
  · unfold bulk_stage
    split
    · exact conserved_copy_file_range_loop fd_in fd_out rs st h
    · exact h
  · refine sat_bind (conserved_clone_stage bs fd_in fd_out st2 rs2 h2) (fun _ st3 rs3 h3 => ?_)
    unfold sendfile_stage
    split
    · exact conserved_sendfile_loop fd_out fd_in rs3 st3 h3
    · exact h3

theorem conserved_copy_one (env : Env) (bs fd_out fd_in : Nat) (st : State) (rs : List Ret)
    (h : Conserved st) (h0 : st.remain = 0) :
    (copy_one env bs fd_out fd_in st rs).sat (fun s => Conserved s ∧ s.remain = 0) Conserved := by
  unfold copy_one
  cases rs with
  | nil => exact h
  | cons r rs =>
    cases r with
    | err e => exact conserved_log st _ _ h rfl rfl
    | ok v =>
      simp only [sys, Res.bind]
      have h1 : Conserved { (st.log (.fstat fd_in) (.ok v)) with remain := v % SIZE_T } := by
        refine ⟨⟨Nat.mod_lt _ (by decide), ?_, ?_⟩, ?_⟩
        · intro e he
          simp only [State.log, List.mem_append, List.mem_singleton] at he
          rcases he with he | rfl
          · exact h.1.2.1 e he
          · exact h.1.1
        · simp only [State.log]
          rw [moved_snoc]
          show st.fd_size = (moved st.trace + 0) % SIZE_T
          simpa using h.1.2.2
        intro hh
        simp only [State.log, List.mem_append, List.mem_singleton] at hh ⊢
        obtain ⟨a1, a3⟩ := h.2 (fun e he => hh e (Or.inl he))
        rw [moved_snoc, sizes_snoc]
        refine ⟨?_, ?_⟩
        · show v % SIZE_T + (moved st.trace + 0) = sizes st.trace + v % SIZE_T
          omega
        · intro e he
          rcases he with he | rfl
          · exact a3 e he
          · exact Nat.zero_le _
      refine sat_bind (conserved_transfer env bs fd_out fd_in _ rs h1) (fun _ st2 rs2 h2 => ?_)
      unfold close_source
      cases rs2 with
      | nil => exact h2
      | cons x rs3 =>
        have h3 : Conserved (st2.log (.close fd_in) x) := conserved_log st2 _ _ h2 rfl rfl
        simp only [sys, Res.bind]
        split
        · exact h3
        · rename_i hz
          exact ⟨h3, by simpa using hz⟩

theorem conserved_copy_loop (env : Env) (bs fd_out : Nat) (fds : List Nat) :
    ∀ (st : State) (rs : List Ret), Conserved st → st.remain = 0 →
      (copy_loop env bs fd_out fds st rs).sat Conserved Conserved := by
  induction fds with
  | nil => intro st rs h _; exact h
  | cons fd fds ih =>
    intro st rs h h0
    unfold copy_loop
    split
    · exact h
    · exact sat_bind (conserved_copy_one env bs fd_out fd st rs h h0)
        (fun _ st2 rs2 h2 => ih st2 rs2 h2.1 h2.2)

theorem sat_state {α : Type} {R : State → Prop} {m : Res α} (h : m.sat R R) : R m.state := by
  cases m <;> exact h

theorem conserved_at_loop (st : State) : Conserved st.at_loop := by
  refine ⟨⟨by simp [State.at_loop, SIZE_T], by simp [State.at_loop],
    by simp [State.at_loop, moved]⟩, ?_⟩
  intro _
  simp [State.at_loop, moved, sizes]

/-- Claim C7, for the copy loop started with `fd_size = 0`, at whatever point
the oracle ends. Every `copy_file_range` request asks for
`min(remain, 2^30)` bytes and every `sendfile` request for
`min(remain, 0x7ffff000)`, and `fd_size` is the sum of the byte counts of the
transfers so far, as a `size_t`. When every call has returned at most what was
requested: that sum is at most the sum of the sizes of the sources reached
(so `fd_size` is, and `fd_size` is the sum exactly when the sum is below
`2^64`), `remain` plus the bytes moved is that sum of sizes, and no transfer
moved more than `remain` held, so that `remain -= n` did not wrap. -/
theorem fd_size_accounting (env : Env) (bs fd_out : Nat) (fds : List Nat) (st : State)
    (rs : List Ret) :
    (∀ e ∈ (copy_loop env bs fd_out fds st.at_loop rs).state.trace,
        (∀ fi fo c, e.call = .copy_file_range fi fo c → c = min e.remain (2 ^ 30))
        ∧ (∀ fo fi c, e.call = .sendfile fo fi c → c = min e.remain 0x7ffff000))
    ∧ (copy_loop env bs fd_out fds st.at_loop rs).state.fd_size
        = moved (copy_loop env bs fd_out fds st.at_loop rs).state.trace % 2 ^ 64
    ∧ ((∀ e ∈ (copy_loop env bs fd_out fds st.at_loop rs).state.trace, e.honest) →
        (moved (copy_loop env bs fd_out fds st.at_loop rs).state.trace < 2 ^ 64 →
            (copy_loop env bs fd_out fds st.at_loop rs).state.fd_size
              = moved (copy_loop env bs fd_out fds st.at_loop rs).state.trace)
        ∧ moved (copy_loop env bs fd_out fds st.at_loop rs).state.trace
            ≤ sizes (copy_loop env bs fd_out fds st.at_loop rs).state.trace
        ∧ (copy_loop env bs fd_out fds st.at_loop rs).state.fd_size
            ≤ sizes (copy_loop env bs fd_out fds st.at_loop rs).state.trace
        ∧ (copy_loop env bs fd_out fds st.at_loop rs).state.remain
            + moved (copy_loop env bs fd_out fds st.at_loop rs).state.trace
            = sizes (copy_loop env bs fd_out fds st.at_loop rs).state.trace
        ∧ ∀ e ∈ (copy_loop env bs fd_out fds st.at_loop rs).state.trace,
            e.moved ≤ e.remain ∧ size_sub e.remain e.moved = e.remain - e.moved) := by
  have hC : Conserved (copy_loop env bs fd_out fds st.at_loop rs).state :=
    sat_state (conserved_copy_loop env bs fd_out fds st.at_loop rs
      (conserved_at_loop st) rfl)
  have h2b : (copy_loop env bs fd_out fds st.at_loop rs).state.fd_size
      = moved (copy_loop env bs fd_out fds st.at_loop rs).state.trace % 2 ^ 64 := hC.1.2.2
  refine ⟨?_, h2b, ?_⟩
  · intro e he
    have h := copy_loop_shape env bs fd_out fds st.at_loop rs e he
    constructor
    · intro fi fo c hc
      simp only [Event.shape, Event.engine, hc] at h
      rw [h.2, request_count_eq_min]; rfl
    · intro fo fi c hc
      simp only [Event.shape, Event.engine, hc] at h
      rw [h.2.1, request_count_eq_min]; rfl
  · intro hh
    obtain ⟨h1, h3⟩ := hC.2 hh
    refine ⟨?_, by omega, ?_, h1, ?_⟩
    · intro hlt
      rw [h2b, Nat.mod_eq_of_lt hlt]
    · rw [h2b]
      exact Nat.le_trans (Nat.mod_le _ _) (by omega)
    · intro e he
      exact ⟨h3 e he, size_sub_le (hC.1.2.1 e he) (h3 e he)⟩

theorem fd_size_accounting_witness :
    (copy_loop env_5_15 4096 3 [4] State.init.at_loop (abc_oracle.drop 6)).state.fd_size
      = moved (copy_loop env_5_15 4096 3 [4] State.init.at_loop (abc_oracle.drop 6)).state.trace
    ∧ (copy_loop env_5_15 4096 3 [4] State.init.at_loop (abc_oracle.drop 6)).state.fd_size
      = 12288 :=
  ⟨((fd_size_accounting env_5_15 4096 3 [4] State.init (abc_oracle.drop 6)).2.2
      (by decide)).1 (by decide), by decide⟩

/-! ## Theorems: `copy_file_range` after `ENOSYS` -/

theorem cfr_after_enosys_snoc (tr : List Event) (x : Event) :
    cfr_after_enosys (tr ++ [x])
      = (cfr_after_enosys tr || (tr.any Event.is_enosys && x.is_cfr)) := by
  induction tr with
  | nil => simp [cfr_after_enosys]
  | cons e tr ih =>
    show (e.is_enosys && (tr ++ [x]).any Event.is_cfr || cfr_after_enosys (tr ++ [x]))
      = ((e.is_enosys && tr.any Event.is_cfr || cfr_after_enosys tr)
          || ((e :: tr).any Event.is_enosys && x.is_cfr))
    rw [ih, List.any_append]
    simp only [List.any_cons, List.any_nil, Bool.or_false]
    generalize e.is_enosys = a
    generalize x.is_cfr = b
    generalize tr.any Event.is_cfr = c
    generalize cfr_after_enosys tr = d
    generalize tr.any Event.is_enosys = f
    cases a <;> cases b <;> cases c <;> cases d <;> cases f <;> rfl

theorem cfr_after_enosys_split (pre : List Event) (e : Event) (post : List Event)
    (h : cfr_after_enosys (pre ++ e :: post) = false) (he : e.is_enosys = true) :
    ∀ x ∈ post, x.is_cfr = false := by
  induction pre with
  | nil =>
    simp only [List.nil_append, cfr_after_enosys, he, Bool.true_and, Bool.or_eq_false_iff] at h
    intro x hx
    have := h.1
    simp only [List.any_eq_false] at this
    simpa using this x hx
  | cons p pre ih =>
    simp only [List.cons_append, cfr_after_enosys, Bool.or_eq_false_iff] at h
    exact ih h.2

theorem is_enosys_le_is_cfr (e : Event) (h : e.is_cfr = false) : e.is_enosys = false := by
  rcases e with ⟨c, r, a, b⟩
  cases c <;> first | rfl | (simp [Event.is_cfr] at h)

/-- Logging a call other than `copy_file_range` keeps the invariant. -/
theorem disabled_log (st : State) (c : Call) (r : Ret) (h : Disabled st)
    (hc : Event.is_cfr ⟨c, r, st.fd_size, st.remain⟩ = false) : Disabled (st.log c r) := by
  have he := is_enosys_le_is_cfr _ hc
  refine ⟨?_, ?_⟩
  · simp only [State.log]
    rw [cfr_after_enosys_snoc, h.1, hc]
    simp
  · intro hf
    simp only [State.log, List.any_append, List.any_cons, List.any_nil, Bool.or_false]
    rw [h.2 hf, he]
    rfl

/-- Logging a `copy_file_range` call made while the flag is set keeps the first
half of the invariant. -/
theorem disabled_log_cfr (st : State) (c : Call) (r : Ret) (h : Disabled st)
    (hf : st.has_copy_file_range = true) : cfr_after_enosys (st.log c r).trace = false := by
  simp only [State.log]
  rw [cfr_after_enosys_snoc, h.1, h.2 hf]
  rfl

theorem disabled_copy_file_range_loop (fd_in fd_out : Nat) (rs : List Ret) :
    ∀ st : State, Disabled st → st.has_copy_file_range = true →
      (copy_file_range_loop fd_in fd_out rs st).sat Disabled Disabled := by
  induction rs with
  | nil => intro st h _; exact h
  | cons r rs ih =>
    intro st h hf
    unfold copy_file_range_loop
    have h1 := disabled_log_cfr st
      (.copy_file_range fd_in fd_out (request_count st.remain max_count_cfr)) r h hf
    cases r with
    | ok n =>
      have h2 : Disabled ((st.log (.copy_file_range fd_in fd_out
          (request_count st.remain max_count_cfr)) (.ok n)).advance n) := by
        refine ⟨h1, fun _ => ?_⟩
        simp only [State.log, State.advance, List.any_append, List.any_cons, List.any_nil,
          Bool.or_false]
        rw [h.2 hf]
        rfl
      simp only []
      split
      · exact ih _ h2 hf
      · exact h2
    | err e =>
      simp only []
      split
      · rename_i he
        refine ⟨h1, fun _ => ?_⟩
        simp only [State.log, List.any_append, List.any_cons, List.any_nil, Bool.or_false]
        rw [h.2 hf]
        simp [Event.is_enosys, he, EINTR, ENOSYS]
      · split
        · exact ⟨h1, fun hx => by simp at hx⟩
        · rename_i he
          refine ⟨h1, fun _ => ?_⟩
          simp only [State.log, List.any_append, List.any_cons, List.any_nil, Bool.or_false]
          rw [h.2 hf]
          simp [Event.is_enosys, he]

theorem disabled_sendfile_loop (fd_out fd_in : Nat) (rs : List Ret) :
    ∀ st : State, Disabled st → (sendfile_loop fd_out fd_in rs st).sat Disabled Disabled := by
  induction rs with
  | nil => intro st h; exact h
  | cons r rs ih =>
    intro st h
    unfold sendfile_loop
    have h1 : Disabled (st.log (.sendfile fd_out fd_in
        (request_count st.remain max_count_sendfile)) r) := disabled_log st _ r h rfl
    cases r with
    | ok n =>
      simp only []
      split
      · exact ih _ h1
      · exact h1
    | err e =>
      simp only []
      split <;> exact h1

theorem disabled_ioctl_loop (c : Call) (hc : ∀ r a b, Event.is_cfr ⟨c, r, a, b⟩ = false)
    (rs : List Ret) :
    ∀ st : State, Disabled st → (ioctl_loop c rs st).sat Disabled Disabled := by
  induction rs with
  | nil => intro st h; exact h
  | cons r rs ih =>
    intro st h
    unfold ioctl_loop
    have h1 : Disabled (st.log c r) := disabled_log st c r h (hc _ _ _)
    split
    · exact ih _ h1
    · exact h1

theorem disabled_clone_stage (bs fd_in fd_out : Nat) (st : State) (rs : List Ret)
    (h : Disabled st) : (clone_stage bs fd_in fd_out st rs).sat Disabled Disabled := by
  unfold clone_stage
  split
  · split
    · exact h
    · split
      · refine sat_bind (disabled_ioctl_loop (.ficlonerange fd_out fd_in 0 st.remain st.fd_size)
          (fun _ _ _ => rfl) rs st h) (fun n st2 rs2 h2 => ?_)
        cases n with
        | err e =>
          simp only []
          split
          · exact h2
          · exact h2
        | ok v =>
          simp only []
          cases rs2 with
          | nil => exact h2
          | cons r rs3 =>
            have h3 : Disabled (st2.log (.lseek_end fd_out) r) := disabled_log st2 _ r h2 rfl
            cases r with
            | err e => exact h3
            | ok eof => exact h3
      · exact h
  · exact h

theorem disabled_copy_one (env : Env) (bs fd_out fd_in : Nat) (st : State) (rs : List Ret)
    (h : Disabled st) : (copy_one env bs fd_out fd_in st rs).sat Disabled Disabled := by
  unfold copy_one
  cases rs with
  | nil => exact h
  | cons r rs =>
    have h1 : Disabled (st.log (.fstat fd_in) r) := disabled_log st _ r h rfl
    cases r with
    | err e => exact h1
    | ok v =>
      simp only [sys, Res.bind]
      have h2 : Disabled { (st.log (.fstat fd_in) (.ok v)) with remain := v % SIZE_T } := h1
      unfold transfer
      refine sat_bind (R := Disabled) (sat_bind (R := Disabled) ?_ (fun _ st2 rs2 h3 => ?_))
        (fun _ st4 rs4 h4 => ?_)
      · unfold bulk_stage
        split
        · rename_i hb
          simp only [Bool.and_eq_true] at hb
          exact disabled_copy_file_range_loop fd_in fd_out rs _ h2 hb.2
        · exact h2
      · refine sat_bind (disabled_clone_stage bs fd_in fd_out st2 rs2 h3)
          (fun _ st3 rs3 h5 => ?_)
        unfold sendfile_stage
        split
        · exact disabled_sendfile_loop fd_out fd_in rs3 st3 h5
        · exact h5
      · unfold close_source
        cases rs4 with
        | nil => exact h4
        | cons x rs5 =>
          have h6 : Disabled (st4.log (.close fd_in) x) := disabled_log st4 _ x h4 rfl
          simp only [sys, Res.bind]
          split
          · exact h6
          · exact h6

theorem disabled_copy_loop (env : Env) (bs fd_out : Nat) (fds : List Nat) :
    ∀ (st : State) (rs : List Ret), Disabled st →
      (copy_loop env bs fd_out fds st rs).sat Disabled Disabled := by
  induction fds with
  | nil => intro st rs h; exact h
  | cons fd fds ih =>
    intro st rs h
    unfold copy_loop
    split
    · exact h
    · exact sat_bind (disabled_copy_one env bs fd_out fd st rs h) (fun _ st2 rs2 h2 => ih st2 rs2 h2)

/-- Once a `copy_file_range` call of a copy loop has failed with `ENOSYS`, no
`copy_file_range` call follows it in the log, for this source or a later one,
and `has_copy_file_range` is cleared at whatever point the run has reached. -/
theorem copy_file_range_stays_disabled (env : Env) (bs fd_out : Nat) (fds : List Nat)
    (st : State) (rs : List Ret) (pre : List Event) (e : Event) (post : List Event)
    (ht : (copy_loop env bs fd_out fds { st with trace := [] } rs).state.trace
      = pre ++ e :: post)
    (he : e.is_enosys = true) :
    (∀ x ∈ post, x.is_cfr = false)
    ∧ (copy_loop env bs fd_out fds { st with trace := [] } rs).state.has_copy_file_range
        = false := by
  have hD : Disabled (copy_loop env bs fd_out fds { st with trace := [] } rs).state :=
    sat_state (disabled_copy_loop env bs fd_out fds { st with trace := [] } rs
      ⟨rfl, fun _ => rfl⟩)
  refine ⟨cfr_after_enosys_split pre e post (by rw [← ht]; exact hD.1) he, ?_⟩
  cases hf : (copy_loop env bs fd_out fds { st with trace := [] } rs).state.has_copy_file_range
  · rfl
  · have := hD.2 hf
    rw [ht] at this
    simp [he] at this

/-! ## Theorems: publication -/

/-- Claim C2, counterexample: the run of `lost_oracle` on `lost_world` is in
anonymous-output mode and ends in the fatal failure of the publish step, and
the destination path, which named a file before the run, names none after
it. -/
theorem publish_failure_loses_destination :
    (main env_5_15 3 lost_oracle).outcome = .exit EXIT_FAILURE
    ∧ (main env_5_15 3 lost_oracle).state.trace.getLast?
        = some ⟨.linkat_proc 3, .err 18, 10, 0⟩
    ∧ lost_world.dest = .old [0x6f, 0x6c, 0x64]
    ∧ (lost_world.replay (main env_5_15 3 lost_oracle).state.trace).map World.dest
        = some .absent := by
  decide

theorem dest_after_no_link (tr : List Event) :
    ∀ d : Dest, (∀ e ∈ tr, e.link_ok = false) →
      dest_after d tr = if tr.any Event.remove_ok then .absent else d := by
  induction tr with
  | nil => intro d _; rfl
  | cons e tr ih =>
    intro d h
    have he := h e (List.mem_cons_self _ _)
    have ht := fun x hx => h x (List.mem_cons_of_mem _ hx)
    unfold dest_after
    unfold Event.link_ok at he
    split
    · simp_all
    · simp_all
    · rw [ih _ ht]
      simp_all [Event.remove_ok]
    · rw [ih _ ht]
      have : e.remove_ok = false := by
        unfold Event.remove_ok
        split
        · simp_all
        · rfl
      simp [List.any_cons, this]

theorem nolink_log (st : State) (c : Call) (r : Ret) (h : NoLink st)
    (hr : Event.link_ok ⟨c, r, st.fd_size, st.remain⟩ = false) : NoLink (st.log c r) := by
  intro e he
  simp only [State.log, List.mem_append, List.mem_singleton] at he
  rcases he with he | rfl
  · exact h e he
  · exact hr

theorem link_ok_err (c : Call) (x a b : Nat) : Event.link_ok ⟨c, .err x, a, b⟩ = false := by
  unfold Event.link_ok
  split <;> simp_all

theorem link_post_sys (c : Call) (st : State) (rs : List Ret) (h : NoLink st) :
    (sys c st rs).link_post := by
  cases rs with
  | nil => exact h
  | cons r rs =>
    cases r with
    | ok v => trivial
    | err x => exact nolink_log st c _ h (link_ok_err _ _ _ _)

theorem link_post_link_or_replace (link : Call) (st : State) (rs : List Ret) (h : NoLink st) :
    (link_or_replace link st rs).link_post := by
  unfold link_or_replace
  cases rs with
  | nil => exact h
  | cons r rs =>
    simp only [sys, Res.bind]
    split
    · rename_i hr
      have h1 : NoLink (st.log link r) := by
        rw [hr]; exact nolink_log st link _ h (link_ok_err _ _ _ _)
      cases rs with
      | nil => exact h1
      | cons r2 rs =>
        cases r2 with
        | err x => exact nolink_log _ _ _ h1 (link_ok_err _ _ _ _)
        | ok v => exact link_post_sys link _ rs (nolink_log _ _ _ h1 rfl)
    · cases r with
      | ok v => trivial
      | err x => exact nolink_log st link _ h (link_ok_err _ _ _ _)

/-- When the publish step ends the run, no `linkat` has succeeded. -/
theorem publish_halt_no_link (fd_out : Nat) (st : State) (rs : List Ret) (h : NoLink st)
    (o : Outcome) (st2 : State) (hp : publish fd_out st rs = .halt o st2) : NoLink st2 := by
  unfold publish at hp
  have h1 := link_post_link_or_replace (.linkat_empty_path fd_out) st rs h
  cases hl : link_or_replace (.linkat_empty_path fd_out) st rs with
  | halt o1 st1 =>
    rw [hl] at h1 hp
    simp only [Res.bind, Res.halt.injEq] at hp
    rw [← hp.2]; exact h1
  | ret n st1 rs1 =>
    rw [hl] at h1 hp
    cases n with
    | ok v => simp [Res.bind] at hp
    | err x =>
      simp only [Res.bind] at hp
      have h1b : NoLink st1 := h1
      split at hp
      · simp only [Res.halt.injEq] at hp
        rw [← hp.2]; exact h1b
      · have h2 := link_post_link_or_replace (.linkat_proc fd_out) st1 rs1 h1b
        cases hl2 : link_or_replace (.linkat_proc fd_out) st1 rs1 with
        | halt o2 st3 =>
          rw [hl2] at h2 hp
          simp only [Res.bind, Res.halt.injEq] at hp
          rw [← hp.2]; exact h2
        | ret n2 st3 rs3 =>
          rw [hl2] at h2 hp
          cases n2 with
          | ok v => simp [Res.bind] at hp
          | err y =>
            simp only [Res.bind, Res.halt.injEq] at hp
            rw [← hp.2]; exact h2

/-- Claim C2, amended: when the publish step ends in a fatal failure, the
destination path is exactly as it was before the step if no `remove` call
succeeded, and names no file if one did. -/
theorem publish_failure_destination (fd_out : Nat) (st : State) (rs : List Ret) (d : Dest)
    (st2 : State)
    (h : publish fd_out { st with trace := [] } rs = .halt (.exit EXIT_FAILURE) st2) :
    dest_after d st2.trace = if st2.trace.any Event.remove_ok then .absent else d :=
  dest_after_no_link st2.trace d
    (publish_halt_no_link fd_out { st with trace := [] } rs (by simp [NoLink]) _ st2 h)

theorem publish_failure_destination_witness :
    dest_after (.old [0x6f, 0x6c, 0x64]) (publish 3 State.init [.err 13]).state.trace
      = .old [0x6f, 0x6c, 0x64]
    ∧ dest_after (.old [0x6f, 0x6c, 0x64])
        (publish 3 State.init [.err EEXIST, .ok 0, .err 13]).state.trace = .absent :=
  ⟨publish_failure_destination 3 State.init [.err 13] (.old [0x6f, 0x6c, 0x64])
      (publish 3 State.init [.err 13]).state rfl,
   publish_failure_destination 3 State.init [.err EEXIST, .ok 0, .err 13]
      (.old [0x6f, 0x6c, 0x64])
      (publish 3 State.init [.err EEXIST, .ok 0, .err 13]).state rfl⟩

/-! ## Theorems: the clone after a partial bulk copy -/

theorem main_abc : main env_5_15 3 abc_oracle = ⟨.exit EXIT_SUCCESS, 
    { has_copy_file_range := false, has_ficlone := true, has_otmpfile := true,
      fd_size := 12288, remain := 0, trace := abc_trace }⟩ := by
  decide

/-- Replay of `abc_trace` on a source made of three blocks of 4096 bytes. -/
theorem replay_abc_trace (A B C : Bytes) (hA : A.length = 4096) (hB : B.length = 4096)
    (hC : C.length = 4096) :
    (World.mk [⟨4, A ++ B ++ C, 0⟩] [] 0 .absent).replay abc_trace
      = some ⟨[⟨4, A ++ B ++ C, 4096⟩], A ++ A ++ B, 12288, .output⟩ := by
  have h1 : List.take 4096 A = A := List.take_of_length_le (by omega)
  have h2 : List.take 8192 (A ++ (B ++ C)) = A ++ B := by
    rw [← List.append_assoc]
    exact List.take_left' (by simp [hA, hB])
  have h3 : List.drop 12288 A = [] := List.drop_eq_nil_of_le (by omega)
  simp [abc_trace, World.replay, World.step, World.transfer, World.source, World.seek_source,
    write_at, hA, hB, hC, ENOSYS, h1, h2, h3]

/-- Replay of `abc_trace_eintr`: the same files result. -/
theorem replay_abc_trace_eintr (A B C : Bytes) (hA : A.length = 4096) (hB : B.length = 4096)
    (hC : C.length = 4096) :
    (World.mk [⟨4, A ++ B ++ C, 0⟩] [] 0 .absent).replay abc_trace_eintr
      = some ⟨[⟨4, A ++ B ++ C, 4096⟩], A ++ A ++ B, 12288, .output⟩ := by
  have h1 : List.take 4096 A = A := List.take_of_length_le (by omega)
  have h2 : List.take 8192 (A ++ (B ++ C)) = A ++ B := by
    rw [← List.append_assoc]
    exact List.take_left' (by simp [hA, hB])
  have h3 : List.drop 12288 A = [] := List.drop_eq_nil_of_le (by omega)
  simp [abc_trace_eintr, abc_trace, World.replay, World.step, World.transfer, World.source,
    World.seek_source, write_at, hA, hB, hC, EINTR, h1, h2, h3]

theorem main_abc_eintr : main env_5_15 3 abc_oracle_eintr = ⟨.exit EXIT_SUCCESS,
    { has_copy_file_range := true, has_ficlone := true, has_otmpfile := true,
      fd_size := 12288, remain := 0, trace := abc_trace_eintr }⟩ := by
  decide

/-- Scenario A of the specification runs to the success code and leaves the
4106 bytes `a^4096 b^10` under the destination path. -/
theorem scenario_a :
    main env_5_15 4 scenario_a_oracle = ⟨.exit EXIT_SUCCESS,
      { has_copy_file_range := true, has_ficlone := true, has_otmpfile := true,
        fd_size := 4106, remain := 0, trace := scenario_a_trace }⟩
    ∧ (scenario_a_world.replay scenario_a_trace).map World.dest_bytes
        = some (some (List.replicate 4096 0x61 ++ List.replicate 10 0x62)) := by
  refine ⟨by decide, ?_⟩
  have h : ∀ (A B : Bytes), A.length = 4096 → B.length = 10 →
      ((World.mk [⟨4, A, 0⟩, ⟨5, B, 0⟩] [] 0 .absent).replay scenario_a_trace).map
        World.dest_bytes = some (some (A ++ B)) := by
    intro A B hA hB
    have h1 : List.take 4096 A = A := List.take_of_length_le (by omega)
    have h2 : List.take 10 B = B := List.take_of_length_le (by omega)
    have h3 : List.drop 4106 A = [] := List.drop_eq_nil_of_le (by omega)
    simp [scenario_a_trace, World.replay, World.step, World.transfer, World.source,
      World.seek_source, write_at, World.dest_bytes, hA, hB, h1, h2, h3]
  exact h _ _ (List.length_replicate _ _) (List.length_replicate _ _)

/-- Replay of the run of `abc_oracle` on `abc_world`. -/
theorem replay_abc_world :
    abc_world.replay abc_trace = some ⟨[⟨4, abc_file, 4096⟩], aab_file, 12288, .output⟩ :=
  replay_abc_trace (List.replicate 4096 0x61) (List.replicate 4096 0x62)
    (List.replicate 4096 0x63) (List.length_replicate _ _) (List.length_replicate _ _)
    (List.length_replicate _ _)

theorem block_a_ne_block_b : List.replicate 4096 0x61 ≠ (List.replicate 4096 0x62 : Bytes) := by
  intro h
  have hm : (0x61 : Nat) ∈ (List.replicate 4096 0x62 : Bytes) := by
    rw [← h]; exact List.mem_replicate.2 ⟨by decide, rfl⟩
  have := List.eq_of_mem_replicate hm
  omega

theorem aab_ne_abc :
    List.replicate 4096 0x61 ++ List.replicate 4096 0x61 ++ List.replicate 4096 0x62
      ≠ (List.replicate 4096 0x61 ++ List.replicate 4096 0x62 ++ List.replicate 4096 0x63
          : Bytes) := by
  intro h
  rw [List.append_assoc, List.append_assoc] at h
  have h2 := List.append_cancel_left h
  have h3 := (List.append_inj h2 (by
    rw [List.length_replicate, List.length_replicate])).1
  exact block_a_ne_block_b h3

/-- Replay of the run of `abc_oracle_eintr` on `abc_world`. -/
theorem replay_abc_world_eintr :
    abc_world.replay abc_trace_eintr
      = some ⟨[⟨4, abc_file, 4096⟩], aab_file, 12288, .output⟩ :=
  replay_abc_trace_eintr (List.replicate 4096 0x61) (List.replicate 4096 0x62)
    (List.replicate 4096 0x63) (List.length_replicate _ _) (List.length_replicate _ _)
    (List.length_replicate _ _)

/-- Claim C1, the code at the failing input: the run of `abc_oracle` on
`abc_world` (one source of three blocks `a`, `b`, `c`; `copy_file_range`
copies the first block and then reports `ENOSYS`; the clone succeeds). The log
is one the files allow, the run ends with the success code, the destination
has the size of the source, and its bytes are the blocks `a`, `a`, `b`, not
the bytes of the source. The same happens when the second `copy_file_range` is
interrupted (`EINTR`) instead. -/
theorem main_success_wrong_bytes :
    (main env_5_15 3 abc_oracle).outcome = .exit EXIT_SUCCESS
    ∧ (abc_world.replay (main env_5_15 3 abc_oracle).state.trace).map World.dest_bytes
        = some (some aab_file)
    ∧ (main env_5_15 3 abc_oracle_eintr).outcome = .exit EXIT_SUCCESS
    ∧ (abc_world.replay (main env_5_15 3 abc_oracle_eintr).state.trace).map World.dest_bytes
        = some (some aab_file)
    ∧ aab_file.length = abc_world.concat.length
    ∧ aab_file ≠ abc_world.concat := by
  rw [main_abc, main_abc_eintr]
  refine ⟨rfl, ?_, rfl, ?_, ?_, ?_⟩
  · rw [replay_abc_world]; rfl
  · rw [replay_abc_world_eintr]; rfl
  · simp only [aab_file, abc_world, abc_file, World.concat, List.map_cons, List.map_nil,
      List.flatten_cons, List.flatten_nil, List.append_nil, List.length_append,
      List.length_replicate]
  · simp only [aab_file, abc_world, abc_file, World.concat, List.map_cons, List.map_nil,
      List.flatten_cons, List.flatten_nil, List.append_nil]
    exact aab_ne_abc

/-- In a copy loop every `FICLONERANGE` request has `src_offset = 0`,
`src_length = remain` and `dest_offset = fd_size`. -/
theorem clone_request_fields (env : Env) (bs fd_out : Nat) (fds : List Nat) (st : State)
    (rs : List Ret) :
    ∀ e ∈ (copy_loop env bs fd_out fds { st with trace := [] } rs).state.trace,
      ∀ fo src off len dst, e.call = .ficlonerange fo src off len dst →
        off = 0 ∧ len = e.remain ∧ dst = e.fd_size := by
  intro e he fo src off len dst hc
  have h := copy_loop_shape env bs fd_out fds st rs e he
  simp only [Event.shape, Event.engine, hc] at h
  exact ⟨h.2.1, h.2.2.1, h.2.2.2.1⟩

/-- Claim C10, the code at the failing input: in the run of `abc_oracle` the
source has size `s = 12288` (`fstat`), the clone is requested with
`r = 8192` bytes remaining at output offset `4096`, and the request has source
offset `0`, not `s - r = 4096`; its length is `r` and its destination offset is
`fd_size`. -/
theorem clone_request_source_offset :
    (main env_5_15 3 abc_oracle).state.trace.get? 6 = some ⟨.fstat 4, .ok 12288, 0, 0⟩
    ∧ (main env_5_15 3 abc_oracle).state.trace.get? 9
        = some ⟨.ficlonerange 3 4 0 8192 4096, .ok 0, 4096, 8192⟩
    ∧ (0 : Nat) ≠ 12288 - 8192 := by
  decide

/-- Claim C4, the code at the failing input: in the run of `abc_oracle`,
`copy_file_range` reports `ENOSYS` with `r = 8192` of the source's 12288 bytes
remaining. The flag is cleared and no `copy_file_range` call follows, but the
next strategy, the clone, is requested for the source bytes `[0, 8192)`: the
file is restarted from zero. After the run the read offset of the source is
still `4096`, the bytes `[4096, 12288)` (block `b` in part, block `c` wholly)
were handed to no call that reads at the source offset, and the destination
holds `a`, `a`, `b`. -/
theorem enosys_then_clone_from_zero :
    (main env_5_15 3 abc_oracle).state.trace.get? 8
        = some ⟨.copy_file_range 4 3 8192, .err ENOSYS, 4096, 8192⟩
    ∧ (main env_5_15 3 abc_oracle).state.trace.get? 9
        = some ⟨.ficlonerange 3 4 0 8192 4096, .ok 0, 4096, 8192⟩
    ∧ (main env_5_15 3 abc_oracle).state.has_copy_file_range = false
    ∧ ((abc_world.replay (main env_5_15 3 abc_oracle).state.trace).map
        fun w => w.sources.map Source.pos) = some [4096]
    ∧ ((abc_world.replay (main env_5_15 3 abc_oracle).state.trace).map fun w => w.out)
        ≠ some abc_world.concat := by
  rw [main_abc]
  refine ⟨by decide, by decide, rfl, ?_, ?_⟩
  · rw [replay_abc_world]; rfl
  · rw [replay_abc_world]
    simp only [Option.map_some', abc_world, World.concat, List.map_cons, List.map_nil,
      List.flatten_cons, List.flatten_nil, List.append_nil, aab_file, abc_file, ne_eq,
      Option.some.injEq]
    exact aab_ne_abc

/-- Claim C6, the code at the failing input: the run of `abc_oracle` on
`abc_world`. The run ends with the success code, the one source (descriptor 4,
12288 bytes) was visited once and closed once, and every `close` happened with
`remain = 0`; yet the source was only partly transferred: its read offset is
still `4096`, the output holds the blocks `a`, `a`, `b`, and no byte of block
`c` was written. -/
theorem success_with_source_partly_skipped :
    (main env_5_15 3 abc_oracle).outcome = .exit EXIT_SUCCESS
    ∧ visited (main env_5_15 3 abc_oracle).state.trace = [4]
    ∧ closed (main env_5_15 3 abc_oracle).state.trace = [4, 3]
    ∧ ((main env_5_15 3 abc_oracle).state.trace.filter Event.is_close).map Event.remain
        = [0, 0]
    ∧ abc_world.concat.length = 12288
    ∧ ((abc_world.replay (main env_5_15 3 abc_oracle).state.trace).map
        fun w => w.sources.map Source.pos) = some [4096]
    ∧ ((abc_world.replay (main env_5_15 3 abc_oracle).state.trace).map fun w => w.out)
        = some aab_file
    ∧ (0x63 : Nat) ∈ abc_world.concat
    ∧ (0x63 : Nat) ∉ aab_file := by
  rw [main_abc]
  refine ⟨rfl, by decide, by decide, by decide, ?_, ?_, ?_, ?_, ?_⟩
  · simp only [abc_world, abc_file, World.concat, List.map_cons, List.map_nil,
      List.flatten_cons, List.flatten_nil, List.append_nil, List.length_append,
      List.length_replicate]
  · rw [replay_abc_world]; rfl
  · rw [replay_abc_world]; rfl
  · simp only [abc_world, abc_file, World.concat, List.map_cons, List.map_nil,
      List.flatten_cons, List.flatten_nil, List.append_nil, List.mem_append,
      List.mem_replicate]
    exact Or.inr ⟨by decide, trivial⟩
  · simp only [aab_file, List.mem_append, List.mem_replicate]
    rintro ((⟨_, h⟩ | ⟨_, h⟩) | ⟨_, h⟩) <;> omega

end Joinfiles
